import Mathlib

/-!
Verification of the traced graph-search engine of `ABD.py`
(`dfs_collect_trace`, `bfs_collect_trace`, `astar_collect_trace`).

The Python functions are shallowly embedded as executable Lean functions:

* a Python `dict` of neighbours becomes an association list that keeps the
  insertion order (the order matters: DFS iterates neighbours in reversed
  insertion order, BFS and A* in `sorted` order);
* Python's `KeyError` (raised when `graph[node]` or `heuristic[node]` is
  looked up for a missing key) becomes an explicit `keyError` outcome;
* the `while` loops are written with an explicit fuel parameter; the
  top-level functions supply a fuel that is proved sufficient, so running
  out of fuel (`none`) never happens on well-formed input;
* the `heapq` priority queue of A* is modelled as a multiset (a list) from
  which `popMin` removes a least element under the lexicographic order on
  the pushed tuples `(f, g, node, path)` — exactly the order Python uses to
  compare heap items.  `heapq` always pops a least element and two equal
  tuples are indistinguishable, so this abstraction only affects the
  internal array layout (hence the order of the `open` snapshot lists in
  the A* trace), never which entry is popped;
* `time.time()` wall-clock measurement is not modelled: the
  `execution_time` component of the Python result tuple is dropped.
-/

/-- Adjacency mapping, as in the Python `graph` dict: each node maps to its
ordered list of `(neighbour, weight)` items. -/
abbrev Graph := List (String × List (String × Nat))

/-- Heuristic table, as in the Python `heuristic` dict. -/
abbrev HTable := List (String × Nat)

/-- The keys of the graph dict. -/
def keys (G : Graph) : List String := G.map Prod.fst

/-- `graph[u]` — `none` models a Python `KeyError`. -/
def lookupG (G : Graph) (u : String) : Option (List (String × Nat)) :=
  (G.find? (fun kv => kv.1 == u)).map Prod.snd

/-- `heuristic[u]` — `none` models a Python `KeyError`. -/
def hLookup (h : HTable) (u : String) : Option Nat :=
  (h.find? (fun kv => kv.1 == u)).map Prod.snd

/-- Total version of the heuristic lookup, used only in specification
predicates (never by the embedded algorithms). -/
def hOf (h : HTable) (u : String) : Nat := (hLookup h u).getD 0

/-- Weight of the directed edge `a → b`, if present. -/
def edgeW (G : Graph) (a b : String) : Option Nat :=
  match lookupG G a with
  | none => none
  | some adjL => (adjL.find? (fun vw => vw.1 == b)).map Prod.snd

/-- `okPath G p` holds when consecutive elements of `p` are joined by edges
of `G`; the empty list is not a path. -/
def okPath (G : Graph) : List String → Bool
  | [] => false
  | [_] => true
  | a :: b :: rest => (edgeW G a b).isSome && okPath G (b :: rest)

/-- Summed edge weights along a node list. -/
def pcost (G : Graph) : List String → Nat
  | a :: b :: rest => (edgeW G a b).getD 0 + pcost G (b :: rest)
  | _ => 0

/-- Number of edges (hops) of a node list. -/
def hops (p : List String) : Nat := p.length - 1

/-- `p` is a path of `G` from `s` to `t`. -/
def PathFromTo (G : Graph) (p : List String) (s t : String) : Prop :=
  okPath G p = true ∧ p.head? = some s ∧ p.getLast? = some t

/-- `t` is reachable from `s` in `G`. -/
def Reachable (G : Graph) (s t : String) : Prop :=
  ∃ p, PathFromTo G p s t

/-- `d` is the least value of the path measure `m` over all paths of `G`
from `s` to `t`.  With `m = pcost G` this is the true shortest-path cost,
with `m = List.length` it measures fewest hops. -/
def IsMinCost (G : Graph) (s t : String) (m : List String → Nat) (d : Nat) : Prop :=
  (∃ p, PathFromTo G p s t ∧ m p = d) ∧ ∀ p, PathFromTo G p s t → d ≤ m p

/-- Well-formed graph: distinct keys, distinct neighbour names per
adjacency list, and every neighbour name is itself a key. -/
def wfGraph (G : Graph) : Prop :=
  (keys G).Nodup ∧
  ∀ kv ∈ G, (kv.2.map Prod.fst).Nodup ∧ ∀ vw ∈ kv.2, vw.1 ∈ keys G

/-- All edge weights are positive. -/
def posW (G : Graph) : Prop := ∀ kv ∈ G, ∀ vw ∈ kv.2, 0 < vw.2

/-- Consistency of the heuristic: `h(n) ≤ c(n,n') + h(n')` on every edge. -/
def Consistent (G : Graph) (h : HTable) : Prop :=
  ∀ kv ∈ G, ∀ vw ∈ kv.2, hOf h kv.1 ≤ vw.2 + hOf h vw.1

/-- Admissibility of the heuristic: `h(n)` never exceeds the true
shortest-path cost from `n` to the goal. -/
def Admissible (G : Graph) (h : HTable) (goal : String) : Prop :=
  ∀ kv ∈ G, ∀ d, IsMinCost G kv.1 goal (pcost G) d → hOf h kv.1 ≤ d

/-- The heuristic table has an entry for every graph key. -/
def covers (h : HTable) (G : Graph) : Prop :=
  ∀ u ∈ keys G, ∃ x, hLookup h u = some x

/-! ### Python string helpers for the trace messages -/

/-- A single-quote character, as used by Python `repr` of a string. -/
def pyQuote : String := String.singleton (Char.ofNat 39)

/-- Python `str` of a list of strings, e.g. `['A', 'B']`. -/
def pyListRepr (l : List String) : String :=
  "[" ++ String.intercalate (", ") (l.map (fun s => pyQuote ++ s ++ pyQuote)) ++ "]"

/-! ### Trace records and results -/

/-- One trace record of DFS/BFS.  Python stores the step index as a float
that is either a whole number or ends in `.5`; `step2` stores twice that
value.  `closedSnap` is the snapshot copy of the closed set (a Python
`set`, here kept in insertion order). -/
structure SearchRec where
  step2 : Nat
  current : Option String
  path : List String
  cost : Nat
  openSnap : List String
  closedSnap : List String
  action : String
  message : String
deriving Repr, DecidableEq

/-- One trace record of A*; `openSnap` holds `(f, node)` pairs and `fval`
is the extra `'f'` entry of the Python dict. -/
structure AStarRec where
  step2 : Nat
  current : Option String
  path : List String
  cost : Nat
  fval : Nat
  openSnap : List (Nat × String)
  closedSnap : List String
  action : String
  message : String
deriving Repr, DecidableEq

/-- The tuple returned by `dfs_collect_trace` / `bfs_collect_trace`
(without the wall-clock `execution_time` component). -/
structure SearchResult where
  path : Option (List String)
  cost : Option Nat
  nodesExpanded : Nat
  steps : Nat
  trace : List SearchRec
deriving Repr, DecidableEq

/-- The tuple returned by `astar_collect_trace` (without wall-clock
time). -/
structure AStarResult where
  path : Option (List String)
  cost : Option Nat
  nodesExpanded : Nat
  steps : Nat
  trace : List AStarRec
deriving Repr, DecidableEq

/-- Outcome of a DFS/BFS invocation: a normal return (together with the
final closed set, which the Python code keeps internal) or an uncaught
`KeyError`. -/
inductive SearchOutcome where
  | ok (res : SearchResult) (closedFinal : List String)
  | keyError (k : String)
deriving Repr, DecidableEq

/-- Outcome of an A* invocation. -/
inductive AStarOutcome where
  | ok (res : AStarResult) (closedFinal : List String)
  | keyError (k : String)
deriving Repr, DecidableEq

/-! ### DFS (`dfs_collect_trace`, ABD.py lines 190–248) -/

/-- Loop state of DFS: `openL` is the Python `open_list` stack (top at the
end), `closed` the closed set in insertion order. -/
structure DfsState where
  openL : List (String × List String × Nat)
  closed : List String
  trace : List SearchRec
  nodesExpanded : Nat
  step : Nat
deriving Repr

/-- A frontier entry of DFS/BFS: `(node, path, cost)` as in the Python
tuples. -/
abbrev SEntry := String × List String × Nat

/-- Return value when the frontier is exhausted (`return None, None, ...`). -/
def dfsFail (st : DfsState) : SearchOutcome :=
  .ok { path := none, cost := none, nodesExpanded := st.nodesExpanded,
        steps := st.step, trace := st.trace } st.closed

/-- The "Pop from Stack" trace record. -/
def dfsPopRec (st : DfsState) (e : SEntry) : SearchRec :=
  { step2 := 2 * (st.step + 1), current := some e.1, path := e.2.1, cost := e.2.2,
    openSnap := st.openL.dropLast.map Prod.fst, closedSnap := st.closed,
    action := "Pop from Stack",
    message := "Popped " ++ e.1 ++ " from OPEN stack" }

/-- The "GOAL FOUND!" trace record. -/
def dfsGoalRec (goal : String) (st : DfsState) (e : SEntry) : SearchRec :=
  { step2 := 2 * (st.step + 1) + 1, current := some e.1, path := e.2.1, cost := e.2.2,
    openSnap := st.openL.dropLast.map Prod.fst, closedSnap := st.closed,
    action := "GOAL FOUND!",
    message := "🎯 Goal " ++ goal ++ " reached! Cost: " ++ toString e.2.2 ++ "km" }

/-- Return value when the popped node is the goal. -/
def dfsGoalOut (goal : String) (st : DfsState) (e : SEntry) : SearchOutcome :=
  .ok { path := some e.2.1, cost := some e.2.2, nodesExpanded := st.nodesExpanded,
        steps := st.step + 1,
        trace := (st.trace ++ [dfsPopRec st e]) ++ [dfsGoalRec goal st e] } st.closed

/-- Next state when the popped node is already closed (`continue`). -/
def dfsSkipState (st : DfsState) (e : SEntry) : DfsState :=
  { openL := st.openL.dropLast, closed := st.closed,
    trace := st.trace ++ [dfsPopRec st e],
    nodesExpanded := st.nodesExpanded, step := st.step + 1 }

/-- Neighbours DFS pushes: reversed insertion order, closed ones skipped
(the current node is already in the closed set at this point). -/
def dfsPushes (adjL : List (String × Nat)) (closed1 : List String) :
    List (String × Nat) :=
  adjL.reverse.filter (fun vw => !(closed1.contains vw.1))

/-- The frontier after a DFS expansion. -/
def dfsOpenAfter (st : DfsState) (e : SEntry) (adjL : List (String × Nat)) :
    List SEntry :=
  st.openL.dropLast ++
    (dfsPushes adjL (st.closed ++ [e.1])).map
      (fun vw => (vw.1, e.2.1 ++ [vw.1], e.2.2 + vw.2))

/-- The DFS "Expand" trace record. -/
def dfsExpandRec (st : DfsState) (e : SEntry) (adjL : List (String × Nat)) :
    SearchRec :=
  { step2 := 2 * (st.step + 1) + 1, current := some e.1, path := e.2.1,
    cost := e.2.2, openSnap := (dfsOpenAfter st e adjL).map Prod.fst,
    closedSnap := st.closed ++ [e.1],
    action := "Expand",
    message := "Added " ++
      pyListRepr ((dfsPushes adjL (st.closed ++ [e.1])).map Prod.fst) ++
      " to OPEN" }

/-- Next state when the popped node is expanded. -/
def dfsExpandState (st : DfsState) (e : SEntry) (adjL : List (String × Nat)) :
    DfsState :=
  { openL := dfsOpenAfter st e adjL, closed := st.closed ++ [e.1],
    trace := (st.trace ++ [dfsPopRec st e]) ++
      (if ((dfsPushes adjL (st.closed ++ [e.1])).map Prod.fst).isEmpty then []
       else [dfsExpandRec st e adjL]),
    nodesExpanded := st.nodesExpanded + 1, step := st.step + 1 }

/-- One iteration of the DFS `while` loop: either the function returns
(`Sum.inl`), or the loop continues in a new state (`Sum.inr`). -/
def dfsStep (G : Graph) (goal : String) (st : DfsState) : Sum SearchOutcome DfsState :=
  match st.openL.getLast? with
  | none => .inl (dfsFail st)
  | some e =>
    if e.1 == goal then .inl (dfsGoalOut goal st e)
    else if st.closed.contains e.1 then .inr (dfsSkipState st e)
    else
      match lookupG G e.1 with
      | none => .inl (.keyError e.1)
      | some adjL => .inr (dfsExpandState st e adjL)

/-- The DFS `while` loop, with fuel. -/
def dfsGo (G : Graph) (goal : String) : Nat → DfsState → Option SearchOutcome
  | 0, _ => none
  | fuel + 1, st =>
    match dfsStep G goal st with
    | .inl out => some out
    | .inr st1 => dfsGo G goal fuel st1

/-- Total number of adjacency entries of `G`. -/
def EG (G : Graph) : Nat := (G.map (fun kv => kv.2.length)).sum

/-- Fuel that is (provably) sufficient for every search loop on `G`. -/
def fuelBound (G : Graph) : Nat := (keys G).length * (EG G + 2) + 2

/-- The DFS "Initialize" trace record. -/
def dfsInitRec (s goal : String) : SearchRec :=
  { step2 := 0, current := none, path := [], cost := 0,
    openSnap := [s], closedSnap := [], action := "Initialize",
    message := "Starting DFS from " ++ s ++ " to " ++ goal }

/-- The state before the first DFS iteration. -/
def dfsInit (s goal : String) : DfsState :=
  { openL := [(s, [s], 0)], closed := [], trace := [dfsInitRec s goal],
    nodesExpanded := 0, step := 0 }

/-- Shallow embedding of `dfs_collect_trace` (ABD.py lines 190–248). -/
def dfs_collect_trace (G : Graph) (s goal : String) : Option SearchOutcome :=
  dfsGo G goal (fuelBound G) (dfsInit s goal)

/-! ### BFS (`bfs_collect_trace`, ABD.py lines 250–308) -/

/-- Comparison Python uses on `(name, weight)` pairs inside `sorted`. -/
def strLt (a b : String) : Bool :=
  let rec go : List Char → List Char → Bool
    | [], [] => false
    | [], _ :: _ => true
    | _ :: _, [] => false
    | c :: cs, d :: ds =>
      if c.toNat < d.toNat then true
      else if d.toNat < c.toNat then false
      else go cs ds
  go a.data b.data

/-- Python tuple `<=` on `(name, weight)` pairs. -/
def pairLe (a b : String × Nat) : Bool :=
  if strLt a.1 b.1 then true
  else if strLt b.1 a.1 then false
  else a.2 ≤ b.2

/-- Insert into a `pairLe`-sorted list (stable). -/
def insertPair (a : String × Nat) : List (String × Nat) → List (String × Nat)
  | [] => [a]
  | b :: bs => if pairLe a b then a :: b :: bs else b :: insertPair a bs

/-- Python `sorted(graph[node].items())`. -/
def sortPairs : List (String × Nat) → List (String × Nat)
  | [] => []
  | a :: rest => insertPair a (sortPairs rest)

/-- Loop state of BFS: `openL` is the deque (front at the head). -/
structure BfsState where
  openL : List (String × List String × Nat)
  closed : List String
  trace : List SearchRec
  nodesExpanded : Nat
  step : Nat
deriving Repr

/-- Return value when the BFS queue is exhausted. -/
def bfsFail (st : BfsState) : SearchOutcome :=
  .ok { path := none, cost := none, nodesExpanded := st.nodesExpanded,
        steps := st.step, trace := st.trace } st.closed

/-- The "Dequeue" trace record (`rest` is the queue after `popleft`). -/
def bfsPopRec (st : BfsState) (e : SEntry) (rest : List SEntry) : SearchRec :=
  { step2 := 2 * (st.step + 1), current := some e.1, path := e.2.1, cost := e.2.2,
    openSnap := rest.map Prod.fst, closedSnap := st.closed,
    action := "Dequeue",
    message := "Dequeued " ++ e.1 ++ " from OPEN queue" }

/-- The BFS "GOAL FOUND!" trace record. -/
def bfsGoalRec (goal : String) (st : BfsState) (e : SEntry) (rest : List SEntry) :
    SearchRec :=
  { step2 := 2 * (st.step + 1) + 1, current := some e.1, path := e.2.1, cost := e.2.2,
    openSnap := rest.map Prod.fst, closedSnap := st.closed,
    action := "GOAL FOUND!",
    message := "🎯 Goal " ++ goal ++ " reached! Cost: " ++ toString e.2.2 ++ "km" }

/-- Return value when the dequeued node is the goal. -/
def bfsGoalOut (goal : String) (st : BfsState) (e : SEntry) (rest : List SEntry) :
    SearchOutcome :=
  .ok { path := some e.2.1, cost := some e.2.2, nodesExpanded := st.nodesExpanded,
        steps := st.step + 1,
        trace := (st.trace ++ [bfsPopRec st e rest]) ++ [bfsGoalRec goal st e rest] }
    st.closed

/-- Next state when the dequeued node is already closed (`continue`). -/
def bfsSkipState (st : BfsState) (e : SEntry) (rest : List SEntry) : BfsState :=
  { openL := rest, closed := st.closed,
    trace := st.trace ++ [bfsPopRec st e rest],
    nodesExpanded := st.nodesExpanded, step := st.step + 1 }

/-- Neighbours BFS enqueues: `sorted` order, closed ones skipped. -/
def bfsPushes (adjL : List (String × Nat)) (closed1 : List String) :
    List (String × Nat) :=
  (sortPairs adjL).filter (fun vw => !(closed1.contains vw.1))

/-- The queue after a BFS expansion. -/
def bfsOpenAfter (st : BfsState) (e : SEntry) (rest : List SEntry)
    (adjL : List (String × Nat)) : List SEntry :=
  rest ++ (bfsPushes adjL (st.closed ++ [e.1])).map
    (fun vw => (vw.1, e.2.1 ++ [vw.1], e.2.2 + vw.2))

/-- The BFS "Expand" trace record. -/
def bfsExpandRec (st : BfsState) (e : SEntry) (rest : List SEntry)
    (adjL : List (String × Nat)) : SearchRec :=
  { step2 := 2 * (st.step + 1) + 1, current := some e.1, path := e.2.1,
    cost := e.2.2, openSnap := (bfsOpenAfter st e rest adjL).map Prod.fst,
    closedSnap := st.closed ++ [e.1],
    action := "Expand",
    message := "Added " ++
      pyListRepr ((bfsPushes adjL (st.closed ++ [e.1])).map Prod.fst) ++
      " to OPEN" }

/-- Next state when the dequeued node is expanded. -/
def bfsExpandState (st : BfsState) (e : SEntry) (rest : List SEntry)
    (adjL : List (String × Nat)) : BfsState :=
  { openL := bfsOpenAfter st e rest adjL, closed := st.closed ++ [e.1],
    trace := (st.trace ++ [bfsPopRec st e rest]) ++
      (if ((bfsPushes adjL (st.closed ++ [e.1])).map Prod.fst).isEmpty then []
       else [bfsExpandRec st e rest adjL]),
    nodesExpanded := st.nodesExpanded + 1, step := st.step + 1 }

/-- One iteration of the BFS `while` loop. -/
def bfsStep (G : Graph) (goal : String) (st : BfsState) : Sum SearchOutcome BfsState :=
  match st.openL with
  | [] => .inl (bfsFail st)
  | e :: rest =>
    if e.1 == goal then .inl (bfsGoalOut goal st e rest)
    else if st.closed.contains e.1 then .inr (bfsSkipState st e rest)
    else
      match lookupG G e.1 with
      | none => .inl (.keyError e.1)
      | some adjL => .inr (bfsExpandState st e rest adjL)

/-- The BFS `while` loop, with fuel. -/
def bfsGo (G : Graph) (goal : String) : Nat → BfsState → Option SearchOutcome
  | 0, _ => none
  | fuel + 1, st =>
    match bfsStep G goal st with
    | .inl out => some out
    | .inr st1 => bfsGo G goal fuel st1

/-- The BFS "Initialize" trace record. -/
def bfsInitRec (s goal : String) : SearchRec :=
  { step2 := 0, current := none, path := [], cost := 0,
    openSnap := [s], closedSnap := [], action := "Initialize",
    message := "Starting BFS from " ++ s ++ " to " ++ goal }

/-- The state before the first BFS iteration. -/
def bfsInit (s goal : String) : BfsState :=
  { openL := [(s, [s], 0)], closed := [], trace := [bfsInitRec s goal],
    nodesExpanded := 0, step := 0 }

/-- Shallow embedding of `bfs_collect_trace` (ABD.py lines 250–308). -/
def bfs_collect_trace (G : Graph) (s goal : String) : Option SearchOutcome :=
  bfsGo G goal (fuelBound G) (bfsInit s goal)

/-! ### A* (`astar_collect_trace`, ABD.py lines 310–373) -/

/-- A heap entry `(f, g, node, path)` as pushed by the Python code. -/
structure AEntry where
  f : Nat
  g : Nat
  node : String
  path : List String
deriving Repr, DecidableEq

/-- Lexicographic `≤` on `List String` (Python list comparison). -/
def listStrLe : List String → List String → Bool
  | [], _ => true
  | _ :: _, [] => false
  | a :: as, b :: bs =>
    if strLt a b then true
    else if strLt b a then false
    else listStrLe as bs

/-- The order `heapq` compares entries with: Python tuple comparison on
`(f, g, node, path)`. -/
def entryLe (a b : AEntry) : Bool :=
  if a.f < b.f then true else if b.f < a.f then false
  else if a.g < b.g then true else if b.g < a.g then false
  else if strLt a.node b.node then true else if strLt b.node a.node then false
  else listStrLe a.path b.path

/-- Least entry of `a :: l` under `entryLe`. -/
def minEntry (a : AEntry) (l : List AEntry) : AEntry :=
  l.foldl (fun x y => if entryLe x y then x else y) a

/-- `heapq.heappop`: remove a least element. -/
def popMin : List AEntry → Option (AEntry × List AEntry)
  | [] => none
  | a :: l => let m := minEntry a l; some (m, (a :: l).erase m)

/-- Loop state of A*. -/
structure AStarState where
  openL : List AEntry
  closed : List String
  trace : List AStarRec
  nodesExpanded : Nat
  step : Nat
deriving Repr

/-- The entry `heapq.heappush` receives for a neighbour `vw` of a node
with `g`-value `g0` and path `path`: `(new_f, new_g, neighbor, path + [neighbor])`
with `new_g = g0 + weight` and `new_f = new_g + heuristic[neighbor]`. -/
def mkAEntry (g0 : Nat) (path : List String) (vw : String × Nat) (hv : Nat) : AEntry :=
  { f := g0 + vw.2 + hv, g := g0 + vw.2, node := vw.1, path := path ++ [vw.1] }

/-- The Python neighbour loop of A*: walk the sorted adjacency items,
skip closed ones, look `heuristic[neighbor]` up (a missing key raises) and
build the entries to push, in order. -/
def astarPushes (h : HTable) (closed1 : List String) (g0 : Nat) (path : List String) :
    List (String × Nat) → Except String (List AEntry)
  | [] => .ok []
  | vw :: rest =>
    if closed1.contains vw.1 then astarPushes h closed1 g0 path rest
    else
      match hLookup h vw.1 with
      | none => .error vw.1
      | some hv =>
        match astarPushes h closed1 g0 path rest with
        | .error k => .error k
        | .ok es => .ok (mkAEntry g0 path vw hv :: es)

/-- Return value when the A* frontier is exhausted. -/
def astarFail (st : AStarState) : AStarOutcome :=
  .ok { path := none, cost := none, nodesExpanded := st.nodesExpanded,
        steps := st.step, trace := st.trace } st.closed

/-- The "Pop min f(n)" trace record; `hc` is `heuristic[current_node]`
(which Python looks up to build the message). -/
def astarPopRec (st : AStarState) (e : AEntry) (rest : List AEntry) (hc : Nat) :
    AStarRec :=
  { step2 := 2 * (st.step + 1), current := some e.node, path := e.path,
    cost := e.g, fval := e.f,
    openSnap := rest.map (fun x => (x.f, x.node)), closedSnap := st.closed,
    action := "Pop min f(n)",
    message := "Popped " ++ e.node ++ " with f=" ++ toString e.f ++
      " (g=" ++ toString e.g ++ "+h=" ++ toString hc ++ ")" }

/-- The "OPTIMAL GOAL!" trace record. -/
def astarGoalRec (st : AStarState) (e : AEntry) (rest : List AEntry) : AStarRec :=
  { step2 := 2 * (st.step + 1) + 1, current := some e.node, path := e.path,
    cost := e.g, fval := e.f,
    openSnap := rest.map (fun x => (x.f, x.node)), closedSnap := st.closed,
    action := "OPTIMAL GOAL!",
    message := "🎯 Optimal path found! Cost: " ++ toString e.g ++ "km" }

/-- Return value when the popped node is the goal. -/
def astarGoalOut (st : AStarState) (e : AEntry) (rest : List AEntry) (hc : Nat) :
    AStarOutcome :=
  .ok { path := some e.path, cost := some e.g, nodesExpanded := st.nodesExpanded,
        steps := st.step + 1,
        trace := (st.trace ++ [astarPopRec st e rest hc]) ++ [astarGoalRec st e rest] }
    st.closed

/-- Next state when the popped node is already closed (`continue`). -/
def astarSkipState (st : AStarState) (e : AEntry) (rest : List AEntry) (hc : Nat) :
    AStarState :=
  { openL := rest, closed := st.closed,
    trace := st.trace ++ [astarPopRec st e rest hc],
    nodesExpanded := st.nodesExpanded, step := st.step + 1 }

/-- The A* "Expand" trace record; `pushes` are the entries built by
`astarPushes`. -/
def astarExpandRec (st : AStarState) (e : AEntry) (rest : List AEntry)
    (pushes : List AEntry) : AStarRec :=
  { step2 := 2 * (st.step + 1) + 1, current := some e.node, path := e.path,
    cost := e.g, fval := e.f,
    openSnap := (rest ++ pushes).map (fun x => (x.f, x.node)),
    closedSnap := st.closed ++ [e.node],
    action := "Expand",
    message := "Added " ++
      toString (pushes.map (fun x => x.node ++ "(f=" ++ toString x.f ++ ")")).length ++
      " neighbors to OPEN" }

/-- Next state when the popped node is expanded; `pushes` are the entries
built by `astarPushes`. -/
def astarExpandState (st : AStarState) (e : AEntry) (rest : List AEntry) (hc : Nat)
    (pushes : List AEntry) : AStarState :=
  { openL := rest ++ pushes, closed := st.closed ++ [e.node],
    trace := (st.trace ++ [astarPopRec st e rest hc]) ++
      (if (pushes.map (fun x => x.node ++ "(f=" ++ toString x.f ++ ")")).isEmpty
       then [] else [astarExpandRec st e rest pushes]),
    nodesExpanded := st.nodesExpanded + 1, step := st.step + 1 }

/-- One iteration of the A* `while` loop.  Note that Python builds the
pop record's message with `heuristic[current_node]` *before* the goal
test, so a node missing from the heuristic table raises there. -/
def astarStep (G : Graph) (goal : String) (h : HTable) (st : AStarState) :
    Sum AStarOutcome AStarState :=
  match popMin st.openL with
  | none => .inl (astarFail st)
  | some (e, rest) =>
    match hLookup h e.node with
    | none => .inl (.keyError e.node)
    | some hc =>
      if e.node == goal then .inl (astarGoalOut st e rest hc)
      else if st.closed.contains e.node then .inr (astarSkipState st e rest hc)
      else
        match lookupG G e.node with
        | none => .inl (.keyError e.node)
        | some adjL =>
          match astarPushes h (st.closed ++ [e.node]) e.g e.path (sortPairs adjL) with
          | .error k => .inl (.keyError k)
          | .ok pushes => .inr (astarExpandState st e rest hc pushes)

/-- The A* `while` loop, with fuel. -/
def astarGo (G : Graph) (goal : String) (h : HTable) :
    Nat → AStarState → Option AStarOutcome
  | 0, _ => none
  | fuel + 1, st =>
    match astarStep G goal h st with
    | .inl out => some out
    | .inr st1 => astarGo G goal h fuel st1

/-- The A* "Initialize" trace record (`hs` is `heuristic[start]`). -/
def astarInitRec (s goal : String) (hs : Nat) : AStarRec :=
  { step2 := 0, current := none, path := [], cost := 0, fval := hs,
    openSnap := [(hs, s)], closedSnap := [], action := "Initialize",
    message := "Starting A* from " ++ s ++ " to " ++ goal }

/-- The initial A* heap entry `(heuristic[start], 0, start, [start])`. -/
def astarStartEntry (s : String) (hs : Nat) : AEntry :=
  { f := hs, g := 0, node := s, path := [s] }

/-- The state before the first A* iteration (`hs` is `heuristic[start]`). -/
def astarInit (s goal : String) (hs : Nat) : AStarState :=
  { openL := [astarStartEntry s hs], closed := [],
    trace := [astarInitRec s goal hs], nodesExpanded := 0, step := 0 }

/-- Shallow embedding of `astar_collect_trace` (ABD.py lines 310–373).
`heuristic[start]` is evaluated before anything else (building the initial
frontier), so a missing start key raises immediately. -/
def astar_collect_trace (G : Graph) (s goal : String) (h : HTable) :
    Option AStarOutcome :=
  match hLookup h s with
  | none => some (.keyError s)
  | some hs => astarGo G goal h (fuelBound G) (astarInit s goal hs)

/-- Number of graph keys not yet closed. -/
def unclosedCount (G : Graph) (closed : List String) : Nat :=
  ((keys G).filter (fun u => !(closed.contains u))).length

/-- Monotone growth of the closed-set snapshots along a trace. -/
def traceMono (tr : List SearchRec) : Prop :=
  List.Chain' (fun r1 r2 => r1.closedSnap ⊆ r2.closedSnap) tr

/-- No DFS/BFS success record occurs in the trace. -/
def noGoalRec (tr : List SearchRec) : Prop :=
  ∀ r ∈ tr, r.action ≠ "GOAL FOUND!"

/-- Monotone growth for A* traces. -/
def traceMonoA (tr : List AStarRec) : Prop :=
  List.Chain' (fun r1 r2 => r1.closedSnap ⊆ r2.closedSnap) tr

/-- No A* success record occurs in the trace. -/
def noGoalRecA (tr : List AStarRec) : Prop :=
  ∀ r ∈ tr, r.action ≠ "OPTIMAL GOAL!"

/-! ### DFS: invariant and measure -/

/-- Every frontier entry carries a valid path from `s` to its node, with
its cost being the path's weight sum, and its node a key of the graph. -/
def sEntryOk (G : Graph) (s : String) (e : SEntry) : Prop :=
  PathFromTo G e.2.1 s e.1 ∧ pcost G e.2.1 = e.2.2 ∧ e.1 ∈ keys G

/-- The DFS loop invariant. -/
structure DfsInv (G : Graph) (s gl : String) (st : DfsState) : Prop where
  entries : ∀ e ∈ st.openL, sEntryOk G s e
  goalOpen : gl ∉ st.closed
  closedEdges : ∀ u ∈ st.closed, ∀ adjL, lookupG G u = some adjL →
    ∀ vw ∈ adjL, vw.1 ∉ st.closed → ∃ e ∈ st.openL, e.1 = vw.1
  startOpen : s ∉ st.closed → ∃ e ∈ st.openL, e.1 = s
  closedKeys : ∀ u ∈ st.closed, u ∈ keys G
  closedNodup : st.closed.Nodup
  countEq : st.nodesExpanded = st.closed.length
  traceNe : st.trace ≠ []
  traceChain : traceMono st.trace
  traceClosed : ∀ r ∈ st.trace, r.closedSnap ⊆ st.closed
  traceNoGoal : noGoalRec st.trace
  lastOpen : st.openL = [] → ∃ t r, st.trace = t ++ [r] ∧ r.openSnap = []

/-- What the DFS loop guarantees about its outcome. -/
def dfsGood (G : Graph) (s gl : String) (out : SearchOutcome) : Prop :=
  ∃ res cl, out = .ok res cl ∧
    res.nodesExpanded = cl.length ∧ cl.Nodup ∧ traceMono res.trace ∧
    ((∃ p, res.path = some p ∧ PathFromTo G p s gl ∧ res.cost = some (pcost G p) ∧
        ∃ t gr, res.trace = t ++ [gr] ∧ gr.action = "GOAL FOUND!" ∧ gr.path = p ∧
          gr.cost = pcost G p ∧ noGoalRec t) ∨
     (res.path = none ∧ res.cost = none ∧ ¬ Reachable G s gl ∧
        ∃ t r, res.trace = t ++ [r] ∧ r.openSnap = []))

/-- Termination measure of the DFS loop. -/
def dfsMeasure (G : Graph) (st : DfsState) : Nat :=
  unclosedCount G st.closed * (EG G + 2) + st.openL.length

/-! ### BFS: invariant, measure and head-minimality -/

/-- Length of a node list, used as the path measure BFS minimises (one
more than the number of hops). -/
def plen (p : List String) : Nat := p.length

/-- The BFS loop invariant.  Besides the DFS-style fields it records that
the queue is sorted by path length, that all queue entries are within one
level of each other, and that every closed node `u` has, for each of its
still-open neighbours, a queue entry within one hop of `u`'s hop-optimal
distance. -/
structure BfsInv (G : Graph) (s gl : String) (st : BfsState) : Prop where
  entries : ∀ e ∈ st.openL, sEntryOk G s e
  goalOpen : gl ∉ st.closed
  closedEdges : ∀ u ∈ st.closed, ∃ du, IsMinCost G s u plen du ∧
    ∀ adjL, lookupG G u = some adjL → ∀ vw ∈ adjL, vw.1 ∉ st.closed →
      ∃ e ∈ st.openL, e.1 = vw.1 ∧ plen e.2.1 ≤ du + 1
  startOpen : s ∉ st.closed → ∃ e ∈ st.openL, e.1 = s ∧ plen e.2.1 = 1
  sorted : List.Pairwise (fun a b : SEntry => plen a.2.1 ≤ plen b.2.1) st.openL
  near : ∀ a ∈ st.openL, ∀ b ∈ st.openL, plen a.2.1 ≤ plen b.2.1 + 1
  closedKeys : ∀ u ∈ st.closed, u ∈ keys G
  closedNodup : st.closed.Nodup
  countEq : st.nodesExpanded = st.closed.length
  traceNe : st.trace ≠ []
  traceChain : traceMono st.trace
  traceClosed : ∀ r ∈ st.trace, r.closedSnap ⊆ st.closed
  traceNoGoal : noGoalRec st.trace
  lastOpen : st.openL = [] → ∃ t r, st.trace = t ++ [r] ∧ r.openSnap = []

/-- What the BFS loop guarantees about its outcome: the DFS-style
guarantees plus hop-minimality of the returned path. -/
def bfsGood (G : Graph) (s gl : String) (out : SearchOutcome) : Prop :=
  ∃ res cl, out = .ok res cl ∧
    res.nodesExpanded = cl.length ∧ cl.Nodup ∧ traceMono res.trace ∧
    ((∃ p, res.path = some p ∧ PathFromTo G p s gl ∧ res.cost = some (pcost G p) ∧
        (∀ q, PathFromTo G q s gl → plen p ≤ plen q) ∧
        ∃ t gr, res.trace = t ++ [gr] ∧ gr.action = "GOAL FOUND!" ∧ gr.path = p ∧
          gr.cost = pcost G p ∧ noGoalRec t) ∨
     (res.path = none ∧ res.cost = none ∧ ¬ Reachable G s gl ∧
        ∃ t r, res.trace = t ++ [r] ∧ r.openSnap = []))

/-- Termination measure of the BFS loop. -/
def bfsMeasure (G : Graph) (st : BfsState) : Nat :=
  unclosedCount G st.closed * (EG G + 2) + st.openL.length

/-! ### A*: invariant, measure and pop-minimality -/

/-- Every A* frontier entry carries a valid path whose cost is its
`g`-value, its node is a key, and its `f`-value is `g + h(node)`. -/
def aEntryOk (G : Graph) (h : HTable) (s : String) (en : AEntry) : Prop :=
  PathFromTo G en.path s en.node ∧ pcost G en.path = en.g ∧ en.node ∈ keys G ∧
    en.f = en.g + hOf h en.node

/-- The A* loop invariant.  `closedEdges` states that every closed node
`u` was expanded with an optimal `g`-value: for each of its still-open
neighbours `v` there is a frontier entry for `v` whose `g` is at most
`dist(u) + w(u,v)`. -/
structure AStarInv (G : Graph) (h : HTable) (s gl : String) (st : AStarState) :
    Prop where
  entries : ∀ en ∈ st.openL, aEntryOk G h s en
  goalOpen : gl ∉ st.closed
  closedEdges : ∀ u ∈ st.closed, ∀ adjL, lookupG G u = some adjL →
    ∀ vw ∈ adjL, vw.1 ∉ st.closed → ∃ en ∈ st.openL, en.node = vw.1
  closedOpt : Consistent G h → ∀ u ∈ st.closed, ∃ du, IsMinCost G s u (pcost G) du ∧
    ∀ adjL, lookupG G u = some adjL → ∀ vw ∈ adjL, vw.1 ∉ st.closed →
      ∃ en ∈ st.openL, en.node = vw.1 ∧ en.g ≤ du + vw.2
  startOpen : s ∉ st.closed → ∃ en ∈ st.openL, en.node = s ∧ en.g = 0
  closedKeys : ∀ u ∈ st.closed, u ∈ keys G
  closedNodup : st.closed.Nodup
  countEq : st.nodesExpanded = st.closed.length
  traceNe : st.trace ≠ []
  traceChain : traceMonoA st.trace
  traceClosed : ∀ r ∈ st.trace, r.closedSnap ⊆ st.closed
  traceNoGoal : noGoalRecA st.trace
  lastOpen : st.openL = [] → ∃ t r, st.trace = t ++ [r] ∧ r.openSnap = []

/-- What the A* loop guarantees about its outcome: the shared guarantees
plus cost-optimality of the returned path. -/
def astarGood (G : Graph) (h : HTable) (s gl : String) (out : AStarOutcome) : Prop :=
  ∃ res cl, out = .ok res cl ∧
    res.nodesExpanded = cl.length ∧ cl.Nodup ∧ traceMonoA res.trace ∧
    ((∃ p, res.path = some p ∧ PathFromTo G p s gl ∧ res.cost = some (pcost G p) ∧
        (Consistent G h → ∀ q, PathFromTo G q s gl → pcost G p ≤ pcost G q) ∧
        ∃ t gr, res.trace = t ++ [gr] ∧ gr.action = "OPTIMAL GOAL!" ∧ gr.path = p ∧
          gr.cost = pcost G p ∧ noGoalRecA t) ∨
     (res.path = none ∧ res.cost = none ∧ ¬ Reachable G s gl ∧
        ∃ t r, res.trace = t ++ [r] ∧ r.openSnap = []))

/-- Termination measure of the A* loop. -/
def astarMeasure (G : Graph) (st : AStarState) : Nat :=
  unclosedCount G st.closed * (EG G + 2) + st.openL.length

/-! ### Concrete data for witnesses and counterexamples -/

/-- A two-node undirected example graph. -/
def exG2 : Graph := [("A", [("B", 2)]), ("B", [("A", 2)])]

/-- The all-zero heuristic table over `exG2` (admissible and consistent). -/
def exH2 : HTable := [("A", 0), ("B", 0)]

/-- A four-node graph made of two disconnected components. -/
def exG4 : Graph :=
  [("A", [("B", 1)]), ("B", [("A", 1)]), ("C", [("D", 2)]), ("D", [("C", 2)])]

/-- The all-zero heuristic table over `exG4`. -/
def exH4 : HTable := [("A", 0), ("B", 0), ("C", 0), ("D", 0)]

/-- Whether a DFS/BFS invocation returned normally. -/
def isOkOutcome : Option SearchOutcome → Bool
  | some (.ok _ _) => true
  | _ => false

/-- Whether an A* invocation returned normally. -/
def isOkOutcomeA : Option AStarOutcome → Bool
  | some (.ok _ _) => true
  | _ => false

/-- Whether a DFS/BFS invocation returned normally with an absent path. -/
def pathIsNone : Option SearchOutcome → Bool
  | some (.ok res _) => res.path.isNone
  | _ => false

/-- Whether an A* invocation returned normally with an absent path. -/
def pathIsNoneA : Option AStarOutcome → Bool
  | some (.ok res _) => res.path.isNone
  | _ => false

/-- Length of the trace of a normal DFS/BFS return. -/
def traceLen : Option SearchOutcome → Nat
  | some (.ok res _) => res.trace.length
  | _ => 0

/-- Length of the trace of a normal A* return. -/
def traceLenA : Option AStarOutcome → Nat
  | some (.ok res _) => res.trace.length
  | _ => 0

/-- A heuristic table that also covers the extra name `"X"`. -/
def exH2X : HTable := [("A", 0), ("B", 0), ("X", 0)]

/-! ### Lemmas: lookups, membership, association lists -/

theorem contains_iff {l : List String} {a : String} : l.contains a = true ↔ a ∈ l := by
  simp

theorem lookupG_mem {G : Graph} {u : String} {adjL : List (String × Nat)}
    (h : lookupG G u = some adjL) : (u, adjL) ∈ G := by
  unfold lookupG at h
  cases hf : G.find? (fun kv => kv.1 == u) with
  | none => rw [hf] at h; exact absurd h (by simp)
  | some kv =>
    rw [hf] at h
    have h2 : kv.2 = adjL := by simpa using h
    have hm := List.mem_of_find?_eq_some hf
    have hp : kv.1 = u := by simpa using List.find?_some hf
    have he : kv = (u, adjL) := by cases kv; simp_all
    rwa [he] at hm

theorem mem_keys_of_lookupG {G : Graph} {u : String} {adjL : List (String × Nat)}
    (h : lookupG G u = some adjL) : u ∈ keys G :=
  List.mem_map.mpr ⟨(u, adjL), lookupG_mem h, rfl⟩

theorem lookupG_isSome {G : Graph} {u : String} (h : u ∈ keys G) :
    ∃ adjL, lookupG G u = some adjL := by
  obtain ⟨kv, hkv, hu⟩ := List.mem_map.mp h
  have hex : ∃ x ∈ G, (fun kv => kv.1 == u) x = true := ⟨kv, hkv, by simp [hu]⟩
  obtain ⟨x, hx⟩ := Option.isSome_iff_exists.mp (List.find?_isSome.mpr hex)
  exact ⟨x.2, by unfold lookupG; rw [hx]; rfl⟩

theorem lookupG_eq_none {G : Graph} {u : String} (h : u ∉ keys G) :
    lookupG G u = none := by
  unfold lookupG
  rw [List.find?_eq_none.mpr]
  · rfl
  · intro kv hkv hp
    exact h (List.mem_map.mpr ⟨kv, hkv, eq_of_beq hp⟩)

theorem hLookup_isSome {h : HTable} {u : String} {G : Graph} (hc : covers h G)
    (hu : u ∈ keys G) : ∃ x, hLookup h u = some x := hc u hu

theorem hOf_eq {h : HTable} {u : String} {x : Nat} (hx : hLookup h u = some x) :
    hOf h u = x := by
  unfold hOf; rw [hx]; rfl

theorem assoc_unique {α β : Type} {l : List (α × β)} (hnd : (l.map Prod.fst).Nodup)
    {a : α} {b1 b2 : β} (h1 : (a, b1) ∈ l) (h2 : (a, b2) ∈ l) : b1 = b2 := by
  induction l with
  | nil => cases h1
  | cons kv rest ih =>
    rw [List.map_cons, List.nodup_cons] at hnd
    rcases List.mem_cons.mp h1 with e1 | m1
    · rcases List.mem_cons.mp h2 with e2 | m2
      · have he : (a, b1) = (a, b2) := e1.trans e2.symm
        have := Prod.mk.injEq a b1 a b2 ▸ he
        exact this.2
      · exfalso
        apply hnd.1
        apply List.mem_map.mpr
        exact ⟨(a, b2), m2, by rw [← e1]⟩
    · rcases List.mem_cons.mp h2 with e2 | m2
      · exfalso
        apply hnd.1
        apply List.mem_map.mpr
        exact ⟨(a, b1), m1, by rw [← e2]⟩
      · exact ih hnd.2 m1 m2

theorem wf_lookupG_of_mem {G : Graph} (hwf : wfGraph G) {u : String}
    {adjL : List (String × Nat)} (hm : (u, adjL) ∈ G) : lookupG G u = some adjL := by
  have hk : u ∈ keys G := List.mem_map.mpr ⟨(u, adjL), hm, rfl⟩
  obtain ⟨adjL2, h2⟩ := lookupG_isSome hk
  have hm2 := lookupG_mem h2
  have : adjL2 = adjL := assoc_unique hwf.1 hm2 hm
  rwa [this] at h2

theorem edgeW_some_elim {G : Graph} {a b : String} {w : Nat}
    (h : edgeW G a b = some w) :
    ∃ adjL, lookupG G a = some adjL ∧ (b, w) ∈ adjL := by
  cases hl : lookupG G a with
  | none =>
    unfold edgeW at h
    rw [hl] at h
    exact absurd h (by simp)
  | some adjL =>
    have h2 : (adjL.find? (fun vw => vw.1 == b)).map Prod.snd = some w := by
      unfold edgeW at h
      rw [hl] at h
      exact h
    refine ⟨adjL, rfl, ?_⟩
    cases hf : adjL.find? (fun vw => vw.1 == b) with
    | none => rw [hf] at h2; exact absurd h2 (by simp)
    | some vw =>
      rw [hf] at h2
      have hv2 : vw.2 = w := by simpa using h2
      have hp : vw.1 = b := by simpa using List.find?_some hf
      have hm := List.mem_of_find?_eq_some hf
      have he : vw = (b, w) := by cases vw; simp_all
      rwa [he] at hm

theorem edgeW_of_mem {G : Graph} (hwf : wfGraph G) {a b : String} {w : Nat}
    {adjL : List (String × Nat)} (hl : lookupG G a = some adjL)
    (hm : (b, w) ∈ adjL) : edgeW G a b = some w := by
  have hnd : (adjL.map Prod.fst).Nodup := ((hwf.2 _ (lookupG_mem hl)).1)
  have hex : ∃ x ∈ adjL, (fun vw => vw.1 == b) x = true := ⟨(b, w), hm, by simp⟩
  obtain ⟨vw, hvw⟩ := Option.isSome_iff_exists.mp (List.find?_isSome.mpr hex)
  obtain ⟨v1, v2⟩ := vw
  have hp : v1 = b := by simpa using List.find?_some hvw
  subst hp
  have hmem := List.mem_of_find?_eq_some hvw
  have hv2 : v2 = w := assoc_unique hnd hmem hm
  unfold edgeW
  rw [hl]
  simp [hvw, hv2]

/-! ### Lemmas: paths and costs -/

theorem okPath_cons_cons {G : Graph} {a b : String} {r : List String} :
    okPath G (a :: b :: r) = true ↔
      (edgeW G a b).isSome = true ∧ okPath G (b :: r) = true := by
  simp [okPath, Bool.and_eq_true]

theorem okPath_tail {G : Graph} {a : String} {l : List String}
    (h : okPath G (a :: l) = true) (hne : l ≠ []) : okPath G l = true := by
  cases l with
  | nil => exact absurd rfl hne
  | cons b r => exact (okPath_cons_cons.mp h).2

theorem okPath_append_right {G : Graph} :
    ∀ (xs : List String) {y : String} {ys : List String},
      okPath G (xs ++ y :: ys) = true → okPath G (y :: ys) = true := by
  intro xs
  induction xs with
  | nil => intro y ys h; exact h
  | cons x xs ih =>
    intro y ys h
    exact ih (okPath_tail h (by simp))

theorem okPath_junction_front {G : Graph} :
    ∀ (xs : List String) {y : String} {ys : List String},
      okPath G (xs ++ y :: ys) = true → okPath G (xs ++ [y]) = true := by
  intro xs
  induction xs with
  | nil => intro y ys _; rfl
  | cons x xs ih =>
    intro y ys h
    cases xs with
    | nil =>
      have := (okPath_cons_cons.mp h).1
      exact okPath_cons_cons.mpr ⟨this, rfl⟩
    | cons x2 t =>
      have h2 := okPath_cons_cons.mp h
      exact okPath_cons_cons.mpr ⟨h2.1, ih h2.2⟩

theorem edge_at_junction {G : Graph} {xs : List String} {x y : String}
    {ys : List String} (h : okPath G (xs ++ x :: y :: ys) = true) :
    (edgeW G x y).isSome = true :=
  (okPath_cons_cons.mp (okPath_append_right xs h)).1

theorem pcost_cons_cons {G : Graph} {a b : String} {r : List String} :
    pcost G (a :: b :: r) = (edgeW G a b).getD 0 + pcost G (b :: r) := rfl

theorem pcost_append_cons {G : Graph} :
    ∀ (xs : List String) (y : String) (ys : List String),
      pcost G (xs ++ y :: ys) = pcost G (xs ++ [y]) + pcost G (y :: ys) := by
  intro xs
  induction xs with
  | nil =>
    intro y ys
    show pcost G (y :: ys) = pcost G [y] + pcost G (y :: ys)
    simp [pcost]
  | cons x xs ih =>
    intro y ys
    cases xs with
    | nil => simp [pcost_cons_cons, pcost]
    | cons x2 t =>
      show pcost G (x :: (x2 :: (t ++ y :: ys))) =
        pcost G (x :: (x2 :: (t ++ [y]))) + pcost G (y :: ys)
      rw [pcost_cons_cons, pcost_cons_cons]
      have ih2 := ih y ys
      simp only [List.cons_append] at ih2
      rw [ih2, Nat.add_assoc]

theorem head?_append_cons {α : Type} (xs : List α) (y : α) (ys : List α) :
    (xs ++ y :: ys).head? = (xs ++ [y]).head? := by
  cases xs <;> rfl

theorem getLast?_append_cons {α : Type} (l : List α) (a : α) (r : List α) :
    (l ++ a :: r).getLast? = (a :: r).getLast? := by
  rw [List.getLast?_append]
  obtain ⟨y, hy⟩ := Option.isSome_iff_exists.mp
    (List.getLast?_isSome.mpr (by simp : (a :: r) ≠ []))
  rw [hy]
  rfl

theorem pathFromTo_front {G : Graph} {pre : List String} {y s t : String}
    {q : List String} (h : PathFromTo G (pre ++ y :: q) s t) :
    PathFromTo G (pre ++ [y]) s y := by
  obtain ⟨hok, hh, _⟩ := h
  refine ⟨okPath_junction_front pre hok, ?_, by simp⟩
  rwa [head?_append_cons] at hh

theorem pathFromTo_suffix {G : Graph} {pre : List String} {y s t : String}
    {suf : List String} (h : PathFromTo G (pre ++ y :: suf) s t) :
    PathFromTo G (y :: suf) y t := by
  obtain ⟨hok, _, hl⟩ := h
  exact ⟨okPath_append_right pre hok, rfl, by rwa [getLast?_append_cons] at hl⟩

/-- Any nonempty node list whose last element avoids `closed` splits at its
first element outside `closed`. -/
theorem exists_first_not_mem (closed : List String) :
    ∀ (P : List String) (t : String), P.getLast? = some t → t ∉ closed →
      ∃ pre y suf, P = pre ++ y :: suf ∧ y ∉ closed ∧ ∀ z ∈ pre, z ∈ closed := by
  intro P
  induction P with
  | nil => intro t h; exact absurd h (by simp)
  | cons a l ih =>
    intro t hlast ht
    by_cases ha : a ∈ closed
    · cases l with
      | nil =>
        have : a = t := by simpa using hlast
        exact absurd (this ▸ ha) ht
      | cons b r =>
        have hlast2 : (b :: r).getLast? = some t := by
          rwa [List.getLast?_cons_cons] at hlast
        obtain ⟨pre, y, suf, hP, hy, hpre⟩ := ih t hlast2 ht
        refine ⟨a :: pre, y, suf, by rw [List.cons_append, ← hP], hy, ?_⟩
        intro z hz
        rcases List.mem_cons.mp hz with hz | hz
        · exact hz ▸ ha
        · exact hpre z hz
    · exact ⟨[], a, l, rfl, ha, by simp⟩

/-- Telescoped consistency along a path: `h(head) ≤ pcost + h(last)`. -/
theorem consistent_telescope {G : Graph} {h : HTable} (hcons : Consistent G h) :
    ∀ p, okPath G p = true → ∀ x y, p.head? = some x → p.getLast? = some y →
      hOf h x ≤ pcost G p + hOf h y := by
  intro p
  induction p with
  | nil => intro _ x y hx; exact absurd hx (by simp)
  | cons a l ih =>
    intro hok x y hx hy
    have hxa : x = a := by simpa using hx.symm
    cases l with
    | nil =>
      have hya : y = a := by simpa using hy.symm
      subst hxa hya
      simp [pcost]
    | cons b r =>
      obtain ⟨hedge, hok2⟩ := okPath_cons_cons.mp hok
      obtain ⟨w, hw⟩ := Option.isSome_iff_exists.mp hedge
      obtain ⟨adjL, hl, hm⟩ := edgeW_some_elim hw
      have hstep : hOf h a ≤ w + hOf h b := hcons _ (lookupG_mem hl) (b, w) hm
      have hy2 : (b :: r).getLast? = some y := by
        rwa [List.getLast?_cons_cons] at hy
      have ih2 := ih hok2 b y rfl hy2
      subst hxa
      rw [pcost_cons_cons, hw]
      simp only [Option.getD_some]
      omega

/-- A least-measure path exists whenever the target is reachable. -/
theorem exists_isMinCost {G : Graph} {s t : String} {m : List String → Nat}
    (h : Reachable G s t) : ∃ d, IsMinCost G s t m d := by
  obtain ⟨p0, hp0⟩ := h
  have hne : (Set.image m {p | PathFromTo G p s t}).Nonempty := ⟨m p0, p0, hp0, rfl⟩
  obtain ⟨d, hd, hmin⟩ := Nat.lt_wfRel.wf.has_min _ hne
  obtain ⟨p, hp, hpd⟩ := hd
  refine ⟨d, ⟨p, hp, hpd⟩, ?_⟩
  intro q hq
  exact le_of_not_lt (hmin (m q) ⟨q, hq, rfl⟩)

/-! ### Lemmas: counting unclosed keys (termination measure) -/

theorem filter_ne_length {l : List String} (hnd : l.Nodup) {c : String} (hc : c ∈ l) :
    (l.filter (fun u => !(u == c))).length + 1 = l.length := by
  induction l with
  | nil => cases hc
  | cons a t ih =>
    rw [List.nodup_cons] at hnd
    by_cases hac : a = c
    · subst hac
      have hft : t.filter (fun u => !(u == a)) = t := by
        apply List.filter_eq_self.mpr
        intro u hu
        have hne : u ≠ a := fun h => hnd.1 (h ▸ hu)
        simp [hne]
      simp [List.filter_cons, hft]
    · have hct : c ∈ t := by
        rcases List.mem_cons.mp hc with h | h
        · exact absurd h.symm hac
        · exact h
      have ih2 := ih hnd.2 hct
      have hfa : (a == c) = true ↔ False := by simp [hac]
      simp only [List.filter_cons]
      rw [if_pos (by simp [hac])]
      simp only [List.length_cons]
      omega

theorem unclosedCount_succ {G : Graph} (hnd : (keys G).Nodup) {closed : List String}
    {c : String} (hc : c ∈ keys G) (hnc : c ∉ closed) :
    unclosedCount G (closed ++ [c]) + 1 = unclosedCount G closed := by
  unfold unclosedCount
  have hsplit : (keys G).filter (fun u => !((closed ++ [c]).contains u)) =
      ((keys G).filter (fun u => !(closed.contains u))).filter (fun u => !(u == c)) := by
    rw [List.filter_filter]
    apply List.filter_congr
    intro u _
    by_cases huc : u = c
    · subst huc; simp
    · by_cases hucl : u ∈ closed
      · simp [huc, hucl]
      · simp [huc, hucl]
  rw [hsplit]
  apply filter_ne_length (hnd.filter _)
  exact List.mem_filter.mpr ⟨hc, by simp [hnc]⟩

theorem unclosedCount_le {G : Graph} (closed : List String) :
    unclosedCount G closed ≤ (keys G).length :=
  List.length_filter_le _ _

theorem adjL_length_le {G : Graph} {u : String} {adjL : List (String × Nat)}
    (h : lookupG G u = some adjL) : adjL.length ≤ EG G := by
  have hm := lookupG_mem h
  exact List.single_le_sum (fun y _ => Nat.zero_le y) _
    (List.mem_map.mpr ⟨(u, adjL), hm, rfl⟩)

/-! ### Lemmas: `sortPairs` and the push lists -/

theorem insertPair_mem {a b : String × Nat} {l : List (String × Nat)} :
    b ∈ insertPair a l ↔ b = a ∨ b ∈ l := by
  induction l with
  | nil => simp [insertPair]
  | cons x t ih =>
    unfold insertPair
    by_cases hle : pairLe a x = true
    · simp [hle]
    · simp only [Bool.not_eq_true] at hle
      simp [hle, ih]
      tauto

theorem insertPair_length (a : String × Nat) (l : List (String × Nat)) :
    (insertPair a l).length = l.length + 1 := by
  induction l with
  | nil => rfl
  | cons x t ih =>
    unfold insertPair
    by_cases hle : pairLe a x = true
    · simp [hle]
    · simp only [Bool.not_eq_true] at hle
      simp [hle, ih]

theorem sortPairs_mem {l : List (String × Nat)} {b : String × Nat} :
    b ∈ sortPairs l ↔ b ∈ l := by
  induction l with
  | nil => simp [sortPairs]
  | cons x t ih =>
    unfold sortPairs
    rw [insertPair_mem]
    simp [ih]

theorem sortPairs_length (l : List (String × Nat)) :
    (sortPairs l).length = l.length := by
  induction l with
  | nil => rfl
  | cons x t ih =>
    unfold sortPairs
    rw [insertPair_length, ih]
    rfl

theorem dfsPushes_mem {adjL : List (String × Nat)} {closed1 : List String}
    {vw : String × Nat} :
    vw ∈ dfsPushes adjL closed1 ↔ vw ∈ adjL ∧ vw.1 ∉ closed1 := by
  unfold dfsPushes
  rw [List.mem_filter, List.mem_reverse]
  simp

theorem dfsPushes_length_le (adjL : List (String × Nat)) (closed1 : List String) :
    (dfsPushes adjL closed1).length ≤ adjL.length :=
  le_trans (List.length_filter_le _ _) (by rw [List.length_reverse])

theorem bfsPushes_mem {adjL : List (String × Nat)} {closed1 : List String}
    {vw : String × Nat} :
    vw ∈ bfsPushes adjL closed1 ↔ vw ∈ adjL ∧ vw.1 ∉ closed1 := by
  unfold bfsPushes
  rw [List.mem_filter, sortPairs_mem]
  simp

theorem bfsPushes_length_le (adjL : List (String × Nat)) (closed1 : List String) :
    (bfsPushes adjL closed1).length ≤ adjL.length :=
  le_trans (List.length_filter_le _ _) (by rw [sortPairs_length])

/-! ### Frontier non-emptiness while the goal is reachable -/

theorem frontier_nonempty {G : Graph} {s gl : String} {closed : List String}
    {α : Type} {f : α → String} {L : List α}
    (hgl : gl ∉ closed)
    (hstart : s ∉ closed → ∃ e ∈ L, f e = s)
    (hedge : ∀ u ∈ closed, ∀ adjL, lookupG G u = some adjL →
      ∀ vw ∈ adjL, vw.1 ∉ closed → ∃ e ∈ L, f e = vw.1)
    (hreach : Reachable G s gl) : L ≠ [] := by
  obtain ⟨P, hP⟩ := hreach
  obtain ⟨pre, y, suf, hsplit, hy, hpre⟩ :=
    exists_first_not_mem closed P gl hP.2.2 hgl
  rcases List.eq_nil_or_concat pre with hnil | ⟨pre0, x, hx⟩
  · subst hnil
    have hys : y = s := by
      have hh := hP.2.1
      rw [hsplit] at hh
      have : s = y := by simpa using hh.symm
      exact this.symm
    obtain ⟨e, he, _⟩ := hstart (hys ▸ hy)
    intro hL
    rw [hL] at he
    cases he
  · have hxc : x ∈ closed := hpre x (by rw [hx, List.concat_eq_append]; simp)
    have hok : okPath G (pre0 ++ x :: y :: suf) = true := by
      have h1 := hP.1
      rw [hsplit, hx, List.concat_eq_append, List.append_assoc] at h1
      simpa using h1
    obtain ⟨w, hw⟩ := Option.isSome_iff_exists.mp (edge_at_junction hok)
    obtain ⟨adjL, hl, hm⟩ := edgeW_some_elim hw
    obtain ⟨e, he, _⟩ := hedge x hxc adjL hl (y, w) hm hy
    intro hL
    rw [hL] at he
    cases he

/-! ### Small helpers shared by the three loop proofs -/

theorem mem_of_getLast?_eq {α : Type} {l : List α} {e : α}
    (h : l.getLast? = some e) : e ∈ l := by
  have h2 := List.dropLast_append_getLast? e h
  rw [← h2]
  simp

theorem openL_split {α : Type} {l : List α} {e : α} (h : l.getLast? = some e) :
    l = l.dropLast ++ [e] :=
  (List.dropLast_append_getLast? e h).symm

theorem traceMono_append {tr : List SearchRec} {r : SearchRec}
    (hmono : traceMono tr) (hsub : ∀ r0 ∈ tr, r0.closedSnap ⊆ r.closedSnap) :
    traceMono (tr ++ [r]) := by
  unfold traceMono at *
  rw [List.chain'_append]
  refine ⟨hmono, List.chain'_singleton r, ?_⟩
  intro x hx y hy
  have hyr : r = y := by simpa using hy
  subst hyr
  exact hsub x (mem_of_getLast?_eq hx)

theorem traceMonoA_append {tr : List AStarRec} {r : AStarRec}
    (hmono : traceMonoA tr) (hsub : ∀ r0 ∈ tr, r0.closedSnap ⊆ r.closedSnap) :
    traceMonoA (tr ++ [r]) := by
  unfold traceMonoA at *
  rw [List.chain'_append]
  refine ⟨hmono, List.chain'_singleton r, ?_⟩
  intro x hx y hy
  have hyr : r = y := by simpa using hy
  subst hyr
  exact hsub x (mem_of_getLast?_eq hx)

theorem okPath_snoc {G : Graph} :
    ∀ (p : List String) {a b : String} {w : Nat}, okPath G p = true →
      p.getLast? = some a → edgeW G a b = some w →
      okPath G (p ++ [b]) = true ∧ pcost G (p ++ [b]) = pcost G p + w := by
  intro p
  induction p with
  | nil => intro a b w _ hlast; exact absurd hlast (by simp)
  | cons x l ih =>
    intro a b w hok hlast hw
    cases l with
    | nil =>
      have hxa : x = a := by simpa using hlast
      subst hxa
      constructor
      · exact okPath_cons_cons.mpr ⟨by simp [hw], rfl⟩
      · simp [pcost_cons_cons, hw, pcost]
    | cons y r =>
      obtain ⟨hedge, hok2⟩ := okPath_cons_cons.mp hok
      have hlast2 : (y :: r).getLast? = some a := by
        rwa [List.getLast?_cons_cons] at hlast
      obtain ⟨ih1, ih2⟩ := ih hok2 hlast2 hw
      constructor
      · exact okPath_cons_cons.mpr ⟨hedge, ih1⟩
      · show pcost G (x :: ((y :: r) ++ [b])) = pcost G (x :: y :: r) + w
        rw [List.cons_append, pcost_cons_cons, pcost_cons_cons]
        simp only [List.cons_append] at ih2
        omega

theorem pathFromTo_snoc {G : Graph} {p : List String} {s a b : String} {w : Nat}
    (hp : PathFromTo G p s a) (hw : edgeW G a b = some w) :
    PathFromTo G (p ++ [b]) s b ∧ pcost G (p ++ [b]) = pcost G p + w := by
  obtain ⟨hok, hh, hl⟩ := hp
  obtain ⟨h1, h2⟩ := okPath_snoc p hok hl hw
  have hne : p ≠ [] := by
    intro he
    rw [he] at hh
    exact absurd hh (by simp)
  refine ⟨⟨h1, ?_, by simp⟩, h2⟩
  rw [show p ++ [b] = p ++ b :: [] by rfl, head?_append_cons]
  cases p with
  | nil => exact absurd rfl hne
  | cons z t => simpa using hh

/-! ### DFS: step equations -/

theorem dfsStep_none {G : Graph} {goal : String} {st : DfsState}
    (h : st.openL.getLast? = none) : dfsStep G goal st = .inl (dfsFail st) := by
  unfold dfsStep
  rw [h]

theorem dfsStep_goal {G : Graph} {goal : String} {st : DfsState} {e : SEntry}
    (h : st.openL.getLast? = some e) (hg : e.1 = goal) :
    dfsStep G goal st = .inl (dfsGoalOut goal st e) := by
  unfold dfsStep
  rw [h]
  simp [hg]

theorem dfsStep_skip {G : Graph} {goal : String} {st : DfsState} {e : SEntry}
    (h : st.openL.getLast? = some e) (hg : e.1 ≠ goal) (hc : e.1 ∈ st.closed) :
    dfsStep G goal st = .inr (dfsSkipState st e) := by
  unfold dfsStep
  rw [h]
  simp [hg, hc]

theorem dfsStep_keyError {G : Graph} {goal : String} {st : DfsState} {e : SEntry}
    (h : st.openL.getLast? = some e) (hg : e.1 ≠ goal) (hc : e.1 ∉ st.closed)
    (hl : lookupG G e.1 = none) : dfsStep G goal st = .inl (.keyError e.1) := by
  unfold dfsStep
  rw [h]
  simp [hg, hc, hl]

theorem dfsStep_expand {G : Graph} {goal : String} {st : DfsState} {e : SEntry}
    {adjL : List (String × Nat)}
    (h : st.openL.getLast? = some e) (hg : e.1 ≠ goal) (hc : e.1 ∉ st.closed)
    (hl : lookupG G e.1 = some adjL) :
    dfsStep G goal st = .inr (dfsExpandState st e adjL) := by
  unfold dfsStep
  rw [h]
  simp [hg, hc, hl]

theorem dfsGo_succ (G : Graph) (goal : String) (fuel : Nat) (st : DfsState) :
    dfsGo G goal (fuel + 1) st =
      match dfsStep G goal st with
      | .inl out => some out
      | .inr st1 => dfsGo G goal fuel st1 := rfl

theorem dfsInv_skip {G : Graph} {s gl : String} {st : DfsState} {e : SEntry}
    (hinv : DfsInv G s gl st) (hL : st.openL.getLast? = some e)
    (hcl : e.1 ∈ st.closed) : DfsInv G s gl (dfsSkipState st e) := by
  have hsplit := openL_split hL
  constructor
  · intro e2 he2
    exact hinv.entries e2 ((List.dropLast_sublist st.openL).subset he2)
  · exact hinv.goalOpen
  · intro u hu adjL hadj vw hvw hnc
    obtain ⟨e2, he2, hfst⟩ := hinv.closedEdges u hu adjL hadj vw hvw hnc
    rw [hsplit] at he2
    rcases List.mem_append.mp he2 with hmem | hmem
    · exact ⟨e2, hmem, hfst⟩
    · have he2e : e2 = e := by simpa using hmem
      subst he2e
      exact absurd (by rw [← hfst]; exact hcl) hnc
  · intro hs
    obtain ⟨e2, he2, hfst⟩ := hinv.startOpen hs
    rw [hsplit] at he2
    rcases List.mem_append.mp he2 with hmem | hmem
    · exact ⟨e2, hmem, hfst⟩
    · have he2e : e2 = e := by simpa using hmem
      subst he2e
      exact absurd (by rw [← hfst]; exact hcl) hs
  · exact hinv.closedKeys
  · exact hinv.closedNodup
  · exact hinv.countEq
  · simp [dfsSkipState]
  · apply traceMono_append hinv.traceChain
    intro r0 hr0
    exact hinv.traceClosed r0 hr0
  · intro r hr
    rcases List.mem_append.mp hr with hmem | hmem
    · exact hinv.traceClosed r hmem
    · have : r = dfsPopRec st e := by simpa using hmem
      subst this
      exact fun x hx => hx
  · intro r hr
    rcases List.mem_append.mp hr with hmem | hmem
    · exact hinv.traceNoGoal r hmem
    · have : r = dfsPopRec st e := by simpa using hmem
      subst this
      show "Pop from Stack" ≠ "GOAL FOUND!"
      decide
  · intro hdl
    refine ⟨st.trace, dfsPopRec st e, rfl, ?_⟩
    show st.openL.dropLast.map Prod.fst = []
    have : st.openL.dropLast = [] := hdl
    rw [this]
    rfl

theorem dfsInv_expand {G : Graph} {s gl : String} {st : DfsState} {e : SEntry}
    {adjL : List (String × Nat)} (hwf : wfGraph G)
    (hinv : DfsInv G s gl st) (hL : st.openL.getLast? = some e)
    (hg : e.1 ≠ gl) (hcl : e.1 ∉ st.closed)
    (hadj : lookupG G e.1 = some adjL) : DfsInv G s gl (dfsExpandState st e adjL) := by
  have hsplit := openL_split hL
  obtain ⟨hpathE, hcostE, hkeyE⟩ := hinv.entries e (mem_of_getLast?_eq hL)
  constructor
  · intro e2 he2
    rcases List.mem_append.mp he2 with hmem | hmem
    · exact hinv.entries e2 ((List.dropLast_sublist st.openL).subset hmem)
    · obtain ⟨vw, hvw, hmap⟩ := List.mem_map.mp hmem
      obtain ⟨hvwAdj, hvwNc⟩ := dfsPushes_mem.mp hvw
      have hedge : edgeW G e.1 vw.1 = some vw.2 := by
        apply edgeW_of_mem hwf hadj
        rw [Prod.mk.eta]
        exact hvwAdj
      obtain ⟨hp2, hc2⟩ := pathFromTo_snoc hpathE hedge
      subst hmap
      refine ⟨hp2, ?_, ?_⟩
      · rw [hc2, hcostE]
      · exact (hwf.2 _ (lookupG_mem hadj)).2 vw hvwAdj
  · intro hglMem
    rcases List.mem_append.mp hglMem with hmem | hmem
    · exact hinv.goalOpen hmem
    · have : gl = e.1 := by simpa using hmem
      exact hg this.symm
  · intro u hu adjL2 hadj2 vw hvw hnc
    have hncOld : vw.1 ∉ st.closed := fun hx => hnc (List.mem_append_left _ hx)
    rcases List.mem_append.mp hu with huOld | huE
    · obtain ⟨e2, he2, hfst⟩ := hinv.closedEdges u huOld adjL2 hadj2 vw hvw hncOld
      rw [hsplit] at he2
      rcases List.mem_append.mp he2 with hmem | hmem
      · exact ⟨e2, List.mem_append_left _ hmem, hfst⟩
      · have he2e : e2 = e := by simpa using hmem
        subst he2e
        exfalso
        apply hnc
        rw [← hfst]
        exact List.mem_append_right _ (by simp)
    · have hue : u = e.1 := by simpa using huE
      subst hue
      have hadjEq : adjL2 = adjL := by
        rw [hadj] at hadj2
        exact (Option.some.inj hadj2).symm
      subst hadjEq
      refine ⟨(vw.1, e.2.1 ++ [vw.1], e.2.2 + vw.2), ?_, rfl⟩
      apply List.mem_append_right
      apply List.mem_map.mpr
      exact ⟨vw, dfsPushes_mem.mpr ⟨hvw, hnc⟩, rfl⟩
  · intro hs
    have hsOld : s ∉ st.closed := fun hx => hs (List.mem_append_left _ hx)
    obtain ⟨e2, he2, hfst⟩ := hinv.startOpen hsOld
    rw [hsplit] at he2
    rcases List.mem_append.mp he2 with hmem | hmem
    · exact ⟨e2, List.mem_append_left _ hmem, hfst⟩
    · have he2e : e2 = e := by simpa using hmem
      subst he2e
      exfalso
      apply hs
      rw [← hfst]
      exact List.mem_append_right _ (by simp)
  · intro u hu
    rcases List.mem_append.mp hu with hmem | hmem
    · exact hinv.closedKeys u hmem
    · have : u = e.1 := by simpa using hmem
      subst this
      exact hkeyE
  · show (st.closed ++ [e.1]).Nodup
    simp [List.nodup_append, hinv.closedNodup, hcl]
  · show st.nodesExpanded + 1 = (st.closed ++ [e.1]).length
    rw [List.length_append, hinv.countEq]
    rfl
  · show (st.trace ++ [dfsPopRec st e]) ++ _ ≠ []
    simp
  · have hchain1 : traceMono (st.trace ++ [dfsPopRec st e]) :=
      traceMono_append hinv.traceChain (fun r0 hr0 => hinv.traceClosed r0 hr0)
    show traceMono ((st.trace ++ [dfsPopRec st e]) ++ _)
    by_cases hif : ((dfsPushes adjL (st.closed ++ [e.1])).map Prod.fst).isEmpty
    · rw [if_pos hif]
      simpa using hchain1
    · rw [if_neg hif]
      apply traceMono_append hchain1
      intro r0 hr0
      rcases List.mem_append.mp hr0 with hmem | hmem
      · intro x hx
        exact List.mem_append_left _ (hinv.traceClosed r0 hmem hx)
      · have : r0 = dfsPopRec st e := by simpa using hmem
        subst this
        intro x hx
        exact List.mem_append_left _ hx
  · intro r hr
    rcases List.mem_append.mp hr with hmem | hmem
    · rcases List.mem_append.mp hmem with hmem2 | hmem2
      · intro x hx
        exact List.mem_append_left _ (hinv.traceClosed r hmem2 hx)
      · have : r = dfsPopRec st e := by simpa using hmem2
        subst this
        intro x hx
        exact List.mem_append_left _ hx
    · by_cases hif : ((dfsPushes adjL (st.closed ++ [e.1])).map Prod.fst).isEmpty
      · rw [if_pos hif] at hmem
        cases hmem
      · rw [if_neg hif] at hmem
        have : r = dfsExpandRec st e adjL := by simpa using hmem
        subst this
        exact fun x hx => hx
  · intro r hr
    rcases List.mem_append.mp hr with hmem | hmem
    · rcases List.mem_append.mp hmem with hmem2 | hmem2
      · exact hinv.traceNoGoal r hmem2
      · have : r = dfsPopRec st e := by simpa using hmem2
        subst this
        show "Pop from Stack" ≠ "GOAL FOUND!"
        decide
    · by_cases hif : ((dfsPushes adjL (st.closed ++ [e.1])).map Prod.fst).isEmpty
      · rw [if_pos hif] at hmem
        cases hmem
      · rw [if_neg hif] at hmem
        have : r = dfsExpandRec st e adjL := by simpa using hmem
        subst this
        show "Expand" ≠ "GOAL FOUND!"
        decide
  · intro hempty
    have h2 := List.append_eq_nil.mp hempty
    have hpushesNil : dfsPushes adjL (st.closed ++ [e.1]) = [] := by
      have hmapNil := h2.2
      cases hp : dfsPushes adjL (st.closed ++ [e.1]) with
      | nil => rfl
      | cons a t =>
        rw [hp] at hmapNil
        exact absurd hmapNil (by simp)
    refine ⟨st.trace, dfsPopRec st e, ?_, ?_⟩
    · show (st.trace ++ [dfsPopRec st e]) ++ _ = st.trace ++ [dfsPopRec st e]
      rw [hpushesNil]
      simp
    · show st.openL.dropLast.map Prod.fst = []
      rw [h2.1]
      rfl

theorem dfsMeasure_skip {G : Graph} {st : DfsState} {e : SEntry}
    (hL : st.openL.getLast? = some e) :
    dfsMeasure G (dfsSkipState st e) < dfsMeasure G st := by
  unfold dfsMeasure
  have hlen : st.openL.length = st.openL.dropLast.length + 1 := by
    conv_lhs => rw [openL_split hL]
    simp
  show unclosedCount G st.closed * (EG G + 2) + st.openL.dropLast.length < _
  omega

theorem dfsMeasure_expand {G : Graph} {st : DfsState} {e : SEntry}
    {adjL : List (String × Nat)} (hnd : (keys G).Nodup)
    (hL : st.openL.getLast? = some e) (hcl : e.1 ∉ st.closed) (hkey : e.1 ∈ keys G)
    (hadj : lookupG G e.1 = some adjL) :
    dfsMeasure G (dfsExpandState st e adjL) < dfsMeasure G st := by
  unfold dfsMeasure
  have huc := unclosedCount_succ hnd hkey hcl
  have hlen : st.openL.length = st.openL.dropLast.length + 1 := by
    conv_lhs => rw [openL_split hL]
    simp
  have hpl : (dfsPushes adjL (st.closed ++ [e.1])).length ≤ EG G :=
    le_trans (dfsPushes_length_le _ _) (adjL_length_le hadj)
  show unclosedCount G (st.closed ++ [e.1]) * (EG G + 2) +
    (dfsOpenAfter st e adjL).length < _
  have hoa : (dfsOpenAfter st e adjL).length =
      st.openL.dropLast.length + (dfsPushes adjL (st.closed ++ [e.1])).length := by
    unfold dfsOpenAfter
    simp
  rw [hoa, ← huc, Nat.succ_mul]
  omega

theorem dfsGo_spec (G : Graph) (s gl : String) (hwf : wfGraph G) :
    ∀ fuel st, DfsInv G s gl st → dfsMeasure G st < fuel →
      ∃ out, dfsGo G gl fuel st = some out ∧ dfsGood G s gl out := by
  intro fuel
  induction fuel with
  | zero => intro st _ hm; exact absurd hm (by omega)
  | succ fuel ih =>
    intro st hinv hm
    rw [dfsGo_succ]
    cases hL : st.openL.getLast? with
    | none =>
      rw [dfsStep_none hL]
      have hempty : st.openL = [] := List.getLast?_eq_none_iff.mp hL
      refine ⟨dfsFail st, rfl, ?_⟩
      refine ⟨_, _, rfl, hinv.countEq, hinv.closedNodup, hinv.traceChain,
        Or.inr ⟨rfl, rfl, ?_, hinv.lastOpen hempty⟩⟩
      intro hreach
      exact frontier_nonempty (f := Prod.fst)
        hinv.goalOpen hinv.startOpen hinv.closedEdges hreach hempty
    | some e =>
      obtain ⟨hpathE, hcostE, hkeyE⟩ := hinv.entries e (mem_of_getLast?_eq hL)
      by_cases hg : e.1 = gl
      · rw [dfsStep_goal hL hg]
        refine ⟨dfsGoalOut gl st e, rfl, ?_⟩
        refine ⟨_, _, rfl, hinv.countEq, hinv.closedNodup, ?_,
          Or.inl ⟨e.2.1, rfl, ?_, ?_, st.trace ++ [dfsPopRec st e],
            dfsGoalRec gl st e, rfl, rfl, rfl, ?_, ?_⟩⟩
        · apply traceMono_append
          · exact traceMono_append hinv.traceChain
              (fun r0 hr0 => hinv.traceClosed r0 hr0)
          · intro r0 hr0
            rcases List.mem_append.mp hr0 with hmem | hmem
            · exact hinv.traceClosed r0 hmem
            · have : r0 = dfsPopRec st e := by simpa using hmem
              subst this
              exact fun x hx => hx
        · rw [← hg]
          exact hpathE
        · show some e.2.2 = some (pcost G e.2.1)
          rw [hcostE]
        · show e.2.2 = pcost G e.2.1
          exact hcostE.symm
        · intro r hr
          rcases List.mem_append.mp hr with hmem | hmem
          · exact hinv.traceNoGoal r hmem
          · have : r = dfsPopRec st e := by simpa using hmem
            subst this
            show "Pop from Stack" ≠ "GOAL FOUND!"
            decide
      · by_cases hcl : e.1 ∈ st.closed
        · rw [dfsStep_skip hL hg hcl]
          exact ih _ (dfsInv_skip hinv hL hcl)
            (by have := dfsMeasure_skip (G := G) hL; omega)
        · obtain ⟨adjL, hadj⟩ := lookupG_isSome hkeyE
          rw [dfsStep_expand hL hg hcl hadj]
          exact ih _ (dfsInv_expand hwf hinv hL hg hcl hadj)
            (by have := dfsMeasure_expand hwf.1 hL hcl hkeyE hadj; omega)

/-- DFS totality with all loop guarantees, for any well-formed graph whose
keys include the start node. -/
theorem dfs_total (G : Graph) (s gl : String) (hwf : wfGraph G) (hs : s ∈ keys G) :
    ∃ out, dfs_collect_trace G s gl = some out ∧ dfsGood G s gl out := by
  apply dfsGo_spec G s gl hwf
  · unfold dfsInit
    constructor
    · intro e he
      have : e = (s, [s], 0) := by simpa using he
      subst this
      exact ⟨⟨rfl, rfl, rfl⟩, rfl, hs⟩
    · simp
    · intro u hu
      cases hu
    · intro _
      exact ⟨(s, [s], 0), by simp, rfl⟩
    · intro u hu
      cases hu
    · exact List.nodup_nil
    · rfl
    · simp
    · exact List.chain'_singleton _
    · intro r hr
      have : r = dfsInitRec s gl := by simpa using hr
      subst this
      exact fun x hx => hx
    · intro r hr
      have : r = dfsInitRec s gl := by simpa using hr
      subst this
      show "Initialize" ≠ "GOAL FOUND!"
      decide
    · intro hko
      exact absurd hko (by simp)
  · show unclosedCount G [] * (EG G + 2) + 1 < (keys G).length * (EG G + 2) + 2
    have h1 : unclosedCount G [] ≤ (keys G).length := unclosedCount_le []
    have h2 : unclosedCount G [] * (EG G + 2) ≤ (keys G).length * (EG G + 2) :=
      Nat.mul_le_mul_right _ h1
    omega

/-! ### BFS: step equations -/

theorem bfsStep_none {G : Graph} {goal : String} {st : BfsState}
    (h : st.openL = []) : bfsStep G goal st = .inl (bfsFail st) := by
  unfold bfsStep
  rw [h]

theorem bfsStep_goal {G : Graph} {goal : String} {st : BfsState} {e : SEntry}
    {rest : List SEntry} (h : st.openL = e :: rest) (hg : e.1 = goal) :
    bfsStep G goal st = .inl (bfsGoalOut goal st e rest) := by
  unfold bfsStep
  rw [h]
  simp [hg]

theorem bfsStep_skip {G : Graph} {goal : String} {st : BfsState} {e : SEntry}
    {rest : List SEntry} (h : st.openL = e :: rest) (hg : e.1 ≠ goal)
    (hc : e.1 ∈ st.closed) : bfsStep G goal st = .inr (bfsSkipState st e rest) := by
  unfold bfsStep
  rw [h]
  simp [hg, hc]

theorem bfsStep_expand {G : Graph} {goal : String} {st : BfsState} {e : SEntry}
    {rest : List SEntry} {adjL : List (String × Nat)}
    (h : st.openL = e :: rest) (hg : e.1 ≠ goal) (hc : e.1 ∉ st.closed)
    (hl : lookupG G e.1 = some adjL) :
    bfsStep G goal st = .inr (bfsExpandState st e rest adjL) := by
  unfold bfsStep
  rw [h]
  simp [hg, hc, hl]

theorem bfsGo_succ (G : Graph) (goal : String) (fuel : Nat) (st : BfsState) :
    bfsGo G goal (fuel + 1) st =
      match bfsStep G goal st with
      | .inl out => some out
      | .inr st1 => bfsGo G goal fuel st1 := rfl

/-- The dequeued entry of BFS carries a hop-minimal path to its node. -/
theorem bfs_head_minlen {G : Graph} {s gl : String} {st : BfsState} {e : SEntry}
    {rest : List SEntry} (hinv : BfsInv G s gl st) (hO : st.openL = e :: rest)
    (hncl : e.1 ∉ st.closed) {d : Nat} (hd : IsMinCost G s e.1 plen d) :
    plen e.2.1 = d := by
  have heMem : e ∈ st.openL := by rw [hO]; simp
  have hheadle : ∀ b ∈ st.openL, plen e.2.1 ≤ plen b.2.1 := by
    intro b hb
    rw [hO] at hb
    rcases List.mem_cons.mp hb with hbe | hbr
    · rw [hbe]
    · have hs := hinv.sorted
      rw [hO] at hs
      exact (List.pairwise_cons.mp hs).1 b hbr
  obtain ⟨⟨P, hP, hPd⟩, hmin⟩ := hd
  have hge : d ≤ plen e.2.1 := hmin _ (hinv.entries e heMem).1
  have hle : plen e.2.1 ≤ d := by
    obtain ⟨pre, y, suf, hsplit, hy, hpre⟩ :=
      exists_first_not_mem st.closed P e.1 hP.2.2 hncl
    rcases List.eq_nil_or_concat pre with hnil | ⟨pre0, x, hx⟩
    · -- the start itself is still open: its singleton entry bounds the head
      subst hnil
      have hys : y = s := by
        have hh := hP.2.1
        rw [hsplit] at hh
        have : s = y := by simpa using hh.symm
        exact this.symm
      obtain ⟨w, hwMem, _, hwLen⟩ := hinv.startOpen (hys ▸ hy)
      have h1 : plen e.2.1 ≤ 1 := hwLen ▸ hheadle w hwMem
      have hd1 : 1 ≤ d := by
        rw [← hPd]
        unfold plen
        rw [hsplit]
        simp
      omega
    · have hxc : x ∈ st.closed := hpre x (by rw [hx, List.concat_eq_append]; simp)
      have hPx : P = (pre0 ++ [x]) ++ y :: suf := by
        rw [hsplit, hx, List.concat_eq_append]
      have hokx : okPath G (pre0 ++ x :: y :: suf) = true := by
        have h1 := hP.1
        rw [hPx, List.append_assoc] at h1
        simpa using h1
      obtain ⟨w, hw⟩ := Option.isSome_iff_exists.mp (edge_at_junction hokx)
      obtain ⟨adjL, hl, hm⟩ := edgeW_some_elim hw
      obtain ⟨du, hduMin, hduEdge⟩ := hinv.closedEdges x hxc
      obtain ⟨ey, heyMem, heyFst, heyLen⟩ := hduEdge adjL hl (y, w) hm hy
      -- du ≤ length of the prefix of `P` ending at `x`
      have hprefix : PathFromTo G (pre0 ++ [x]) s x := by
        apply pathFromTo_front (q := y :: suf)
        have hre : pre0 ++ x :: y :: suf = P := by
          rw [hPx]
          simp
        rw [hre]
        exact hP
      have hduLe : du ≤ plen (pre0 ++ [x]) := hduMin.2 _ hprefix
      have hlenP : plen (pre0 ++ [x]) + 1 ≤ plen P := by
        unfold plen
        rw [hPx]
        simp
        omega
      have := hheadle ey heyMem
      omega
  omega

theorem pairwise_of_all {A : Type} {R : A → A → Prop} {l : List A}
    (h : ∀ a ∈ l, ∀ b ∈ l, R a b) : List.Pairwise R l := by
  induction l with
  | nil => exact List.Pairwise.nil
  | cons x t ih =>
    constructor
    · intro b hb
      exact h x (by simp) b (List.mem_cons_of_mem _ hb)
    · exact ih (fun a ha b hb =>
        h a (List.mem_cons_of_mem _ ha) b (List.mem_cons_of_mem _ hb))

theorem bfsInv_skip {G : Graph} {s gl : String} {st : BfsState} {e : SEntry}
    {rest : List SEntry} (hinv : BfsInv G s gl st) (hO : st.openL = e :: rest)
    (hcl : e.1 ∈ st.closed) : BfsInv G s gl (bfsSkipState st e rest) := by
  have hmemRest : ∀ x : SEntry, x ∈ rest → x ∈ st.openL := by
    intro x hx
    rw [hO]
    exact List.mem_cons_of_mem e hx
  constructor
  · intro e2 he2
    exact hinv.entries e2 (hmemRest e2 he2)
  · exact hinv.goalOpen
  · intro u hu
    obtain ⟨du, hduMin, hduEdge⟩ := hinv.closedEdges u hu
    refine ⟨du, hduMin, ?_⟩
    intro adjL hadj vw hvw hnc
    obtain ⟨e2, he2, hfst, hlen⟩ := hduEdge adjL hadj vw hvw hnc
    rw [hO] at he2
    rcases List.mem_cons.mp he2 with he2e | hmem
    · subst he2e
      exact absurd (by rw [← hfst]; exact hcl) hnc
    · exact ⟨e2, hmem, hfst, hlen⟩
  · intro hs
    obtain ⟨e2, he2, hfst, hlen⟩ := hinv.startOpen hs
    rw [hO] at he2
    rcases List.mem_cons.mp he2 with he2e | hmem
    · subst he2e
      exact absurd (by rw [← hfst]; exact hcl) hs
    · exact ⟨e2, hmem, hfst, hlen⟩
  · have hs := hinv.sorted
    rw [hO] at hs
    exact (List.pairwise_cons.mp hs).2
  · intro a ha b hb
    exact hinv.near a (hmemRest a ha) b (hmemRest b hb)
  · exact hinv.closedKeys
  · exact hinv.closedNodup
  · exact hinv.countEq
  · simp [bfsSkipState]
  · apply traceMono_append hinv.traceChain
    intro r0 hr0
    exact hinv.traceClosed r0 hr0
  · intro r hr
    rcases List.mem_append.mp hr with hmem | hmem
    · exact hinv.traceClosed r hmem
    · have : r = bfsPopRec st e rest := by simpa using hmem
      subst this
      exact fun x hx => hx
  · intro r hr
    rcases List.mem_append.mp hr with hmem | hmem
    · exact hinv.traceNoGoal r hmem
    · have : r = bfsPopRec st e rest := by simpa using hmem
      subst this
      show "Dequeue" ≠ "GOAL FOUND!"
      decide
  · intro hdl
    refine ⟨st.trace, bfsPopRec st e rest, rfl, ?_⟩
    show rest.map Prod.fst = []
    rw [show rest = ([] : List SEntry) from hdl]
    rfl

theorem bfsInv_expand {G : Graph} {s gl : String} {st : BfsState} {e : SEntry}
    {rest : List SEntry} {adjL : List (String × Nat)} (hwf : wfGraph G)
    (hinv : BfsInv G s gl st) (hO : st.openL = e :: rest)
    (hg : e.1 ≠ gl) (hcl : e.1 ∉ st.closed)
    (hadj : lookupG G e.1 = some adjL) :
    BfsInv G s gl (bfsExpandState st e rest adjL) := by
  have heMem : e ∈ st.openL := by rw [hO]; simp
  have hmemRest : ∀ x : SEntry, x ∈ rest → x ∈ st.openL := by
    intro x hx
    rw [hO]
    exact List.mem_cons_of_mem e hx
  obtain ⟨hpathE, hcostE, hkeyE⟩ := hinv.entries e heMem
  -- the dequeued entry is hop-minimal for its node
  obtain ⟨dE, hdE⟩ := exists_isMinCost (m := plen) ⟨e.2.1, hpathE⟩
  have hLmin : plen e.2.1 = dE := bfs_head_minlen hinv hO hcl hdE
  have hEopt : IsMinCost G s e.1 plen (plen e.2.1) := by
    rw [hLmin]
    exact hdE
  have hpushLen : ∀ x ∈ (bfsPushes adjL (st.closed ++ [e.1])).map
      (fun vw => (vw.1, e.2.1 ++ [vw.1], e.2.2 + vw.2)), plen x.2.1 = plen e.2.1 + 1 := by
    intro x hx
    obtain ⟨vw, _, hmap⟩ := List.mem_map.mp hx
    subst hmap
    simp [plen]
  have hheadle : ∀ b ∈ rest, plen e.2.1 ≤ plen b.2.1 := by
    have hs := hinv.sorted
    rw [hO] at hs
    exact (List.pairwise_cons.mp hs).1
  constructor
  · intro e2 he2
    rcases List.mem_append.mp he2 with hmem | hmem
    · exact hinv.entries e2 (hmemRest e2 hmem)
    · obtain ⟨vw, hvw, hmap⟩ := List.mem_map.mp hmem
      obtain ⟨hvwAdj, hvwNc⟩ := bfsPushes_mem.mp hvw
      have hedge : edgeW G e.1 vw.1 = some vw.2 := by
        apply edgeW_of_mem hwf hadj
        rw [Prod.mk.eta]
        exact hvwAdj
      obtain ⟨hp2, hc2⟩ := pathFromTo_snoc hpathE hedge
      subst hmap
      refine ⟨hp2, ?_, ?_⟩
      · rw [hc2, hcostE]
      · exact (hwf.2 _ (lookupG_mem hadj)).2 vw hvwAdj
  · intro hglMem
    rcases List.mem_append.mp hglMem with hmem | hmem
    · exact hinv.goalOpen hmem
    · have : gl = e.1 := by simpa using hmem
      exact hg this.symm
  · intro u hu
    rcases List.mem_append.mp hu with huOld | huE
    · obtain ⟨du, hduMin, hduEdge⟩ := hinv.closedEdges u huOld
      refine ⟨du, hduMin, ?_⟩
      intro adjL2 hadj2 vw hvw hnc
      have hncOld : vw.1 ∉ st.closed := fun hx => hnc (List.mem_append_left _ hx)
      obtain ⟨e2, he2, hfst, hlen⟩ := hduEdge adjL2 hadj2 vw hvw hncOld
      rw [hO] at he2
      rcases List.mem_cons.mp he2 with he2e | hmem
      · subst he2e
        exfalso
        apply hnc
        rw [← hfst]
        exact List.mem_append_right _ (by simp)
      · exact ⟨e2, List.mem_append_left _ hmem, hfst, hlen⟩
    · have hue : u = e.1 := by simpa using huE
      subst hue
      refine ⟨plen e.2.1, hEopt, ?_⟩
      intro adjL2 hadj2 vw hvw hnc
      have hadjEq : adjL2 = adjL := by
        rw [hadj] at hadj2
        exact (Option.some.inj hadj2).symm
      subst hadjEq
      refine ⟨(vw.1, e.2.1 ++ [vw.1], e.2.2 + vw.2), ?_, rfl, ?_⟩
      · apply List.mem_append_right
        apply List.mem_map.mpr
        exact ⟨vw, bfsPushes_mem.mpr ⟨hvw, hnc⟩, rfl⟩
      · simp [plen]
  · intro hs
    have hsOld : s ∉ st.closed := fun hx => hs (List.mem_append_left _ hx)
    obtain ⟨e2, he2, hfst, hlen⟩ := hinv.startOpen hsOld
    rw [hO] at he2
    rcases List.mem_cons.mp he2 with he2e | hmem
    · subst he2e
      exfalso
      apply hs
      rw [← hfst]
      exact List.mem_append_right _ (by simp)
    · exact ⟨e2, List.mem_append_left _ hmem, hfst, hlen⟩
  · show List.Pairwise (fun a b : SEntry => plen a.2.1 ≤ plen b.2.1)
      (bfsOpenAfter st e rest adjL)
    unfold bfsOpenAfter
    rw [List.pairwise_append]
    refine ⟨?_, ?_, ?_⟩
    · have hs := hinv.sorted
      rw [hO] at hs
      exact (List.pairwise_cons.mp hs).2
    · apply pairwise_of_all
      intro a ha b hb
      have h1 := hpushLen a ha
      have h2 := hpushLen b hb
      omega
    · intro a ha b hb
      have h1 : plen a.2.1 ≤ plen e.2.1 + 1 :=
        hinv.near a (hmemRest a ha) e heMem
      have h2 := hpushLen b hb
      omega
  · intro a ha b hb
    rcases List.mem_append.mp ha with hma | hma <;>
      rcases List.mem_append.mp hb with hmb | hmb
    · exact hinv.near a (hmemRest a hma) b (hmemRest b hmb)
    · have h1 : plen a.2.1 ≤ plen e.2.1 + 1 :=
        hinv.near a (hmemRest a hma) e heMem
      have h2 := hpushLen b hmb
      omega
    · have h1 := hpushLen a hma
      have h2 : plen e.2.1 ≤ plen b.2.1 := hheadle b hmb
      omega
    · have h1 := hpushLen a hma
      have h2 := hpushLen b hmb
      omega
  · intro u hu
    rcases List.mem_append.mp hu with hmem | hmem
    · exact hinv.closedKeys u hmem
    · have : u = e.1 := by simpa using hmem
      subst this
      exact hkeyE
  · show (st.closed ++ [e.1]).Nodup
    simp [List.nodup_append, hinv.closedNodup, hcl]
  · show st.nodesExpanded + 1 = (st.closed ++ [e.1]).length
    rw [List.length_append, hinv.countEq]
    rfl
  · show (st.trace ++ [bfsPopRec st e rest]) ++ _ ≠ []
    simp
  · have hchain1 : traceMono (st.trace ++ [bfsPopRec st e rest]) :=
      traceMono_append hinv.traceChain (fun r0 hr0 => hinv.traceClosed r0 hr0)
    show traceMono ((st.trace ++ [bfsPopRec st e rest]) ++ _)
    by_cases hif : ((bfsPushes adjL (st.closed ++ [e.1])).map Prod.fst).isEmpty
    · rw [if_pos hif]
      simpa using hchain1
    · rw [if_neg hif]
      apply traceMono_append hchain1
      intro r0 hr0
      rcases List.mem_append.mp hr0 with hmem | hmem
      · intro x hx
        exact List.mem_append_left _ (hinv.traceClosed r0 hmem hx)
      · have : r0 = bfsPopRec st e rest := by simpa using hmem
        subst this
        intro x hx
        exact List.mem_append_left _ hx
  · intro r hr
    rcases List.mem_append.mp hr with hmem | hmem
    · rcases List.mem_append.mp hmem with hmem2 | hmem2
      · intro x hx
        exact List.mem_append_left _ (hinv.traceClosed r hmem2 hx)
      · have : r = bfsPopRec st e rest := by simpa using hmem2
        subst this
        intro x hx
        exact List.mem_append_left _ hx
    · by_cases hif : ((bfsPushes adjL (st.closed ++ [e.1])).map Prod.fst).isEmpty
      · rw [if_pos hif] at hmem
        cases hmem
      · rw [if_neg hif] at hmem
        have : r = bfsExpandRec st e rest adjL := by simpa using hmem
        subst this
        exact fun x hx => hx
  · intro r hr
    rcases List.mem_append.mp hr with hmem | hmem
    · rcases List.mem_append.mp hmem with hmem2 | hmem2
      · exact hinv.traceNoGoal r hmem2
      · have : r = bfsPopRec st e rest := by simpa using hmem2
        subst this
        show "Dequeue" ≠ "GOAL FOUND!"
        decide
    · by_cases hif : ((bfsPushes adjL (st.closed ++ [e.1])).map Prod.fst).isEmpty
      · rw [if_pos hif] at hmem
        cases hmem
      · rw [if_neg hif] at hmem
        have : r = bfsExpandRec st e rest adjL := by simpa using hmem
        subst this
        show "Expand" ≠ "GOAL FOUND!"
        decide
  · intro hempty
    have h2 := List.append_eq_nil.mp hempty
    have hpushesNil : bfsPushes adjL (st.closed ++ [e.1]) = [] := by
      have hmapNil := h2.2
      cases hp : bfsPushes adjL (st.closed ++ [e.1]) with
      | nil => rfl
      | cons a t =>
        rw [hp] at hmapNil
        exact absurd hmapNil (by simp)
    refine ⟨st.trace, bfsPopRec st e rest, ?_, ?_⟩
    · show (st.trace ++ [bfsPopRec st e rest]) ++ _ = st.trace ++ [bfsPopRec st e rest]
      rw [hpushesNil]
      simp
    · show rest.map Prod.fst = []
      rw [show rest = ([] : List SEntry) from h2.1]
      rfl

theorem bfsMeasure_skip {G : Graph} {st : BfsState} {e : SEntry}
    {rest : List SEntry} (hO : st.openL = e :: rest) :
    bfsMeasure G (bfsSkipState st e rest) < bfsMeasure G st := by
  unfold bfsMeasure
  show unclosedCount G st.closed * (EG G + 2) + rest.length < _
  rw [hO]
  simp

theorem bfsMeasure_expand {G : Graph} {st : BfsState} {e : SEntry}
    {rest : List SEntry} {adjL : List (String × Nat)} (hnd : (keys G).Nodup)
    (hO : st.openL = e :: rest) (hcl : e.1 ∉ st.closed) (hkey : e.1 ∈ keys G)
    (hadj : lookupG G e.1 = some adjL) :
    bfsMeasure G (bfsExpandState st e rest adjL) < bfsMeasure G st := by
  unfold bfsMeasure
  have huc := unclosedCount_succ hnd hkey hcl
  have hpl : (bfsPushes adjL (st.closed ++ [e.1])).length ≤ EG G :=
    le_trans (bfsPushes_length_le _ _) (adjL_length_le hadj)
  show unclosedCount G (st.closed ++ [e.1]) * (EG G + 2) +
    (bfsOpenAfter st e rest adjL).length < _
  have hoa : (bfsOpenAfter st e rest adjL).length =
      rest.length + (bfsPushes adjL (st.closed ++ [e.1])).length := by
    unfold bfsOpenAfter
    simp
  rw [hoa, ← huc, Nat.succ_mul, hO]
  simp only [List.length_cons]
  omega

theorem bfsGo_spec (G : Graph) (s gl : String) (hwf : wfGraph G) :
    ∀ fuel st, BfsInv G s gl st → bfsMeasure G st < fuel →
      ∃ out, bfsGo G gl fuel st = some out ∧ bfsGood G s gl out := by
  intro fuel
  induction fuel with
  | zero => intro st _ hm; exact absurd hm (by omega)
  | succ fuel ih =>
    intro st hinv hm
    rw [bfsGo_succ]
    cases hO : st.openL with
    | nil =>
      rw [bfsStep_none hO]
      refine ⟨bfsFail st, rfl, ?_⟩
      refine ⟨_, _, rfl, hinv.countEq, hinv.closedNodup, hinv.traceChain,
        Or.inr ⟨rfl, rfl, ?_, hinv.lastOpen hO⟩⟩
      intro hreach
      apply frontier_nonempty (f := Prod.fst) hinv.goalOpen
        (fun hs => by
          obtain ⟨e2, hmem, hf, _⟩ := hinv.startOpen hs
          exact ⟨e2, hmem, hf⟩)
        (fun u hu adjL hadj vw hvw hnc => by
          obtain ⟨du, _, hedge⟩ := hinv.closedEdges u hu
          obtain ⟨e2, hmem, hf, _⟩ := hedge adjL hadj vw hvw hnc
          exact ⟨e2, hmem, hf⟩)
        hreach hO
    | cons e rest =>
      have heMem : e ∈ st.openL := by rw [hO]; simp
      obtain ⟨hpathE, hcostE, hkeyE⟩ := hinv.entries e heMem
      by_cases hg : e.1 = gl
      · rw [bfsStep_goal hO hg]
        have hncl : e.1 ∉ st.closed := by rw [hg]; exact hinv.goalOpen
        obtain ⟨d, hd⟩ := exists_isMinCost (m := plen) ⟨e.2.1, hpathE⟩
        have hLd := bfs_head_minlen hinv hO hncl hd
        refine ⟨bfsGoalOut gl st e rest, rfl, ?_⟩
        refine ⟨_, _, rfl, hinv.countEq, hinv.closedNodup, ?_,
          Or.inl ⟨e.2.1, rfl, ?_, ?_, ?_, st.trace ++ [bfsPopRec st e rest],
            bfsGoalRec gl st e rest, rfl, rfl, rfl, ?_, ?_⟩⟩
        · apply traceMono_append
          · exact traceMono_append hinv.traceChain
              (fun r0 hr0 => hinv.traceClosed r0 hr0)
          · intro r0 hr0
            rcases List.mem_append.mp hr0 with hmem | hmem
            · exact hinv.traceClosed r0 hmem
            · have : r0 = bfsPopRec st e rest := by simpa using hmem
              subst this
              exact fun x hx => hx
        · rw [← hg]
          exact hpathE
        · show some e.2.2 = some (pcost G e.2.1)
          rw [hcostE]
        · intro q hq
          rw [hLd]
          apply hd.2
          rw [hg]
          exact hq
        · show e.2.2 = pcost G e.2.1
          exact hcostE.symm
        · intro r hr
          rcases List.mem_append.mp hr with hmem | hmem
          · exact hinv.traceNoGoal r hmem
          · have : r = bfsPopRec st e rest := by simpa using hmem
            subst this
            show "Dequeue" ≠ "GOAL FOUND!"
            decide
      · by_cases hcl : e.1 ∈ st.closed
        · rw [bfsStep_skip hO hg hcl]
          exact ih _ (bfsInv_skip hinv hO hcl)
            (by have := bfsMeasure_skip (G := G) hO; omega)
        · obtain ⟨adjL, hadj⟩ := lookupG_isSome hkeyE
          rw [bfsStep_expand hO hg hcl hadj]
          exact ih _ (bfsInv_expand hwf hinv hO hg hcl hadj)
            (by have := bfsMeasure_expand hwf.1 hO hcl hkeyE hadj; omega)

/-- BFS totality with all loop guarantees. -/
theorem bfs_total (G : Graph) (s gl : String) (hwf : wfGraph G) (hs : s ∈ keys G) :
    ∃ out, bfs_collect_trace G s gl = some out ∧ bfsGood G s gl out := by
  apply bfsGo_spec G s gl hwf
  · unfold bfsInit
    constructor
    · intro e he
      have : e = (s, [s], 0) := by simpa using he
      subst this
      exact ⟨⟨rfl, rfl, rfl⟩, rfl, hs⟩
    · simp
    · intro u hu
      cases hu
    · intro _
      exact ⟨(s, [s], 0), by simp, rfl, rfl⟩
    · simp
    · intro a ha b hb
      have hae : a = (s, [s], 0) := by simpa using ha
      have hbe : b = (s, [s], 0) := by simpa using hb
      subst hae
      subst hbe
      show plen [s] ≤ plen [s] + 1
      simp
    · intro u hu
      cases hu
    · exact List.nodup_nil
    · rfl
    · simp
    · exact List.chain'_singleton _
    · intro r hr
      have : r = bfsInitRec s gl := by simpa using hr
      subst this
      exact fun x hx => hx
    · intro r hr
      have : r = bfsInitRec s gl := by simpa using hr
      subst this
      show "Initialize" ≠ "GOAL FOUND!"
      decide
    · intro hko
      exact absurd hko (by simp)
  · show unclosedCount G [] * (EG G + 2) + 1 < (keys G).length * (EG G + 2) + 2
    have h1 : unclosedCount G [] ≤ (keys G).length := unclosedCount_le []
    have h2 : unclosedCount G [] * (EG G + 2) ≤ (keys G).length * (EG G + 2) :=
      Nat.mul_le_mul_right _ h1
    omega

/-! ### A*: heap-pop lemmas -/

theorem entryLe_f_le {a b : AEntry} (h : entryLe a b = true) : a.f ≤ b.f := by
  unfold entryLe at h
  by_cases h1 : a.f < b.f
  · omega
  · by_cases h2 : b.f < a.f
    · rw [if_neg h1, if_pos h2] at h
      cases h
    · omega

theorem entryLe_f_ge {a b : AEntry} (h : entryLe a b = false) : b.f ≤ a.f := by
  unfold entryLe at h
  by_cases h1 : a.f < b.f
  · rw [if_pos h1] at h
    cases h
  · omega

theorem minEntry_spec : ∀ (l : List AEntry) (a : AEntry),
    minEntry a l ∈ a :: l ∧ (minEntry a l).f ≤ a.f ∧
      ∀ x ∈ l, (minEntry a l).f ≤ x.f := by
  intro l
  induction l with
  | nil =>
    intro a
    refine ⟨by simp [minEntry], le_refl _, by simp⟩
  | cons b t ih =>
    intro a
    have hstep : minEntry a (b :: t) = minEntry (if entryLe a b then a else b) t := rfl
    obtain ⟨hmem, hle, hall⟩ := ih (if entryLe a b then a else b)
    have hcf : (if entryLe a b then a else b).f ≤ a.f ∧
        (if entryLe a b then a else b).f ≤ b.f := by
      by_cases hab : entryLe a b = true
      · rw [if_pos hab]
        exact ⟨le_refl _, entryLe_f_le hab⟩
      · have hab2 : entryLe a b = false := by simpa using hab
        rw [if_neg (by simp [hab2])]
        exact ⟨entryLe_f_ge hab2, le_refl _⟩
    refine ⟨?_, ?_, ?_⟩
    · rw [hstep]
      rcases List.mem_cons.mp hmem with hcm | hmt
      · rw [hcm]
        by_cases hab : entryLe a b = true
        · rw [if_pos hab]
          simp
        · have hab2 : entryLe a b = false := by simpa using hab
          rw [if_neg (by simp [hab2])]
          simp
      · exact List.mem_cons_of_mem _ (List.mem_cons_of_mem _ hmt)
    · rw [hstep]
      exact le_trans hle hcf.1
    · intro x hx
      rw [hstep]
      rcases List.mem_cons.mp hx with hxb | hxt
      · rw [hxb]
        exact le_trans hle hcf.2
      · exact hall x hxt

theorem popMin_spec {L : List AEntry} {e : AEntry} {rest : List AEntry}
    (h : popMin L = some (e, rest)) :
    e ∈ L ∧ rest = L.erase e ∧ ∀ x ∈ L, e.f ≤ x.f := by
  cases L with
  | nil => cases h
  | cons a l =>
    unfold popMin at h
    obtain ⟨hmem, _, hall⟩ := minEntry_spec l a
    have h2 : minEntry a l = e ∧ (a :: l).erase (minEntry a l) = rest := by
      have := Option.some.inj h
      exact ⟨congrArg Prod.fst this, congrArg Prod.snd this⟩
    obtain ⟨hme, hre⟩ := h2
    subst hme
    refine ⟨hmem, hre.symm, ?_⟩
    intro x hx
    rcases List.mem_cons.mp hx with hxa | hxl
    · rw [hxa]
      exact (minEntry_spec l a).2.1
    · exact hall x hxl

theorem popMin_none {L : List AEntry} (h : popMin L = none) : L = [] := by
  cases L with
  | nil => rfl
  | cons a l => cases h

theorem popMin_length {L : List AEntry} {e : AEntry} {rest : List AEntry}
    (h : popMin L = some (e, rest)) : rest.length + 1 = L.length := by
  obtain ⟨hmem, hre, _⟩ := popMin_spec h
  rw [hre, List.length_erase_of_mem hmem]
  have : 1 ≤ L.length := by
    cases L with
    | nil => cases hmem
    | cons a l => simp
  omega

/-! ### A*: step equations -/

theorem astarStep_none {G : Graph} {goal : String} {h : HTable} {st : AStarState}
    (hP : popMin st.openL = none) : astarStep G goal h st = .inl (astarFail st) := by
  unfold astarStep
  rw [hP]

theorem astarStep_hKeyError {G : Graph} {goal : String} {h : HTable} {st : AStarState}
    {e : AEntry} {rest : List AEntry} (hP : popMin st.openL = some (e, rest))
    (hh : hLookup h e.node = none) : astarStep G goal h st = .inl (.keyError e.node) := by
  unfold astarStep
  rw [hP]
  simp [hh]

theorem astarStep_goal {G : Graph} {goal : String} {h : HTable} {st : AStarState}
    {e : AEntry} {rest : List AEntry} {hc : Nat}
    (hP : popMin st.openL = some (e, rest)) (hh : hLookup h e.node = some hc)
    (hg : e.node = goal) : astarStep G goal h st = .inl (astarGoalOut st e rest hc) := by
  unfold astarStep
  rw [hP]
  simp only [hh]
  simp [hg]

theorem astarStep_skip {G : Graph} {goal : String} {h : HTable} {st : AStarState}
    {e : AEntry} {rest : List AEntry} {hc : Nat}
    (hP : popMin st.openL = some (e, rest)) (hh : hLookup h e.node = some hc)
    (hg : e.node ≠ goal) (hcl : e.node ∈ st.closed) :
    astarStep G goal h st = .inr (astarSkipState st e rest hc) := by
  unfold astarStep
  rw [hP]
  simp only [hh]
  simp [hg, hcl]

theorem astarStep_expand {G : Graph} {goal : String} {h : HTable} {st : AStarState}
    {e : AEntry} {rest : List AEntry} {hc : Nat} {adjL : List (String × Nat)}
    {pushes : List AEntry}
    (hP : popMin st.openL = some (e, rest)) (hh : hLookup h e.node = some hc)
    (hg : e.node ≠ goal) (hcl : e.node ∉ st.closed)
    (hl : lookupG G e.node = some adjL)
    (hpush : astarPushes h (st.closed ++ [e.node]) e.g e.path (sortPairs adjL) = .ok pushes) :
    astarStep G goal h st = .inr (astarExpandState st e rest hc pushes) := by
  unfold astarStep
  rw [hP]
  simp only [hh]
  simp [hg, hcl, hl, hpush]

theorem astarGo_succ (G : Graph) (goal : String) (h : HTable) (fuel : Nat)
    (st : AStarState) :
    astarGo G goal h (fuel + 1) st =
      match astarStep G goal h st with
      | .inl out => some out
      | .inr st1 => astarGo G goal h fuel st1 := rfl

/-! ### A*: pushes lemmas -/

theorem astarPushes_sound {h : HTable} {closed1 : List String} {g0 : Nat}
    {path : List String} :
    ∀ (l : List (String × Nat)) (pushes : List AEntry),
      astarPushes h closed1 g0 path l = .ok pushes →
      (∀ x ∈ pushes, ∃ vw, vw ∈ l ∧ vw.1 ∉ closed1 ∧
        x = mkAEntry g0 path vw (hOf h vw.1)) ∧
      (∀ vw ∈ l, vw.1 ∉ closed1 → mkAEntry g0 path vw (hOf h vw.1) ∈ pushes) ∧
      pushes.length ≤ l.length := by
  intro l
  induction l with
  | nil =>
    intro pushes hok
    have : ([] : List AEntry) = pushes := by
      unfold astarPushes at hok
      exact Except.ok.inj hok
    subst this
    exact ⟨by simp, by simp, by simp⟩
  | cons vw t ih =>
    intro pushes hok
    unfold astarPushes at hok
    by_cases hcl : (closed1.contains vw.1) = true
    · rw [if_pos hcl] at hok
      obtain ⟨h1, h2, h3⟩ := ih pushes hok
      refine ⟨?_, ?_, ?_⟩
      · intro x hx
        obtain ⟨vw2, hm, hnc, hx2⟩ := h1 x hx
        exact ⟨vw2, List.mem_cons_of_mem _ hm, hnc, hx2⟩
      · intro vw2 hm hnc
        rcases List.mem_cons.mp hm with hvv | hmt
        · subst hvv
          exact absurd (contains_iff.mp hcl) hnc
        · exact h2 vw2 hmt hnc
      · exact le_trans h3 (by simp)
    · rw [if_neg hcl] at hok
      have hvnc : vw.1 ∉ closed1 := fun hm => hcl (contains_iff.mpr hm)
      cases hh : hLookup h vw.1 with
      | none =>
        rw [hh] at hok
        cases hok
      | some hv =>
        rw [hh] at hok
        cases hrec : astarPushes h closed1 g0 path t with
        | error k =>
          rw [hrec] at hok
          simp at hok
        | ok es =>
          rw [hrec] at hok
          simp only [Except.ok.injEq] at hok
          have hOfv : hOf h vw.1 = hv := hOf_eq hh
          obtain ⟨h1, h2, h3⟩ := ih es hrec
          subst hok
          refine ⟨?_, ?_, ?_⟩
          · intro x hx
            rcases List.mem_cons.mp hx with hxh | hxt
            · refine ⟨vw, by simp, hvnc, ?_⟩
              rw [hOfv]
              exact hxh
            · obtain ⟨vw2, hm, hnc, hx2⟩ := h1 x hxt
              exact ⟨vw2, List.mem_cons_of_mem _ hm, hnc, hx2⟩
          · intro vw2 hm hnc
            rcases List.mem_cons.mp hm with hvv | hmt
            · subst hvv
              rw [hOfv]
              exact List.mem_cons_self _ _
            · exact List.mem_cons_of_mem _ (h2 vw2 hmt hnc)
          · simpa using h3

theorem astarPushes_ok {h : HTable} {C : List String} {g : Nat}
    {p : List String} :
    ∀ (l : List (String × Nat)),
      (∀ vw ∈ l, ∃ x, hLookup h vw.1 = some x) →
      ∃ pushes, astarPushes h C g p l = .ok pushes := by
  intro l
  induction l with
  | nil => intro _; exact ⟨[], rfl⟩
  | cons vw t ih =>
    intro hcov
    obtain ⟨pushes, hrec⟩ := ih (fun vw2 hm => hcov vw2 (List.mem_cons_of_mem _ hm))
    by_cases hcl : (C.contains vw.1) = true
    · refine ⟨pushes, ?_⟩
      unfold astarPushes
      rw [if_pos hcl]
      exact hrec
    · obtain ⟨hv, hh⟩ := hcov vw (by simp)
      refine ⟨mkAEntry g p vw hv :: pushes, ?_⟩
      unfold astarPushes
      rw [if_neg hcl, hh, hrec]

/-- The popped minimum-`f` entry of A* carries an optimal `g`-value for
its node, provided the heuristic is consistent. -/
theorem astar_pop_ming {G : Graph} {h : HTable} {s gl : String} {st : AStarState}
    {e : AEntry} {rest : List AEntry} (hcons : Consistent G h)
    (hinv : AStarInv G h s gl st) (hP : popMin st.openL = some (e, rest))
    (hncl : e.node ∉ st.closed) {d : Nat} (hd : IsMinCost G s e.node (pcost G) d) :
    e.g = d := by
  obtain ⟨heMem, _, hfmin⟩ := popMin_spec hP
  obtain ⟨hpathE, hcostE, _, hfE⟩ := hinv.entries e heMem
  obtain ⟨⟨P, hPft, hPd⟩, hmin⟩ := hd
  have hge : d ≤ e.g := by
    rw [← hcostE]
    exact hmin _ hpathE
  have hle : e.g ≤ d := by
    obtain ⟨pre, y, suf, hsplit, hy, hpre⟩ :=
      exists_first_not_mem st.closed P e.node hPft.2.2 hncl
    have hlastSuf : (y :: suf).getLast? = some e.node := by
      have := hPft.2.2
      rw [hsplit, getLast?_append_cons] at this
      exact this
    have hokSuf : okPath G (y :: suf) = true := okPath_append_right pre (hsplit ▸ hPft.1)
    have htele : hOf h y ≤ pcost G (y :: suf) + hOf h e.node :=
      consistent_telescope hcons (y :: suf) hokSuf y e.node rfl hlastSuf
    have hsplitCost : pcost G P = pcost G (pre ++ [y]) + pcost G (y :: suf) := by
      rw [hsplit]
      exact pcost_append_cons pre y suf
    rcases List.eq_nil_or_concat pre with hnil | ⟨pre0, x, hx⟩
    · -- the first open node on P is the start itself
      subst hnil
      have hys : y = s := by
        have hh := hPft.2.1
        rw [hsplit] at hh
        have : s = y := by simpa using hh.symm
        exact this.symm
      obtain ⟨w, hwMem, hwNode, hwG⟩ := hinv.startOpen (hys ▸ hy)
      obtain ⟨_, _, _, hfW⟩ := hinv.entries w hwMem
      have h1 : e.f ≤ w.f := hfmin w hwMem
      have h2 : w.f = hOf h s := by
        rw [hfW, hwG, hwNode]
        exact Nat.zero_add _
      have h3 : pcost G ([] ++ [y]) = 0 := by
        subst hys
        rfl
      rw [hfE, h2] at h1
      subst hys
      omega
    · -- the predecessor x of y on P is closed, with optimal distance
      have hxc : x ∈ st.closed := hpre x (by rw [hx, List.concat_eq_append]; simp)
      have hPx : P = (pre0 ++ [x]) ++ y :: suf := by
        rw [hsplit, hx, List.concat_eq_append]
      have hokx : okPath G (pre0 ++ x :: y :: suf) = true := by
        have h1 := hPft.1
        rw [hPx, List.append_assoc] at h1
        simpa using h1
      obtain ⟨w, hw⟩ := Option.isSome_iff_exists.mp (edge_at_junction hokx)
      obtain ⟨adjL, hl, hm⟩ := edgeW_some_elim hw
      obtain ⟨du, hduMin, hduEdge⟩ := hinv.closedOpt hcons x hxc
      obtain ⟨ey, heyMem, heyNode, heyG⟩ := hduEdge adjL hl (y, w) hm hy
      obtain ⟨_, _, _, hfEy⟩ := hinv.entries ey heyMem
      have hprefix : PathFromTo G (pre0 ++ [x]) s x := by
        apply pathFromTo_front (q := y :: suf)
        have hre : pre0 ++ x :: y :: suf = P := by
          rw [hPx]
          simp
        rw [hre]
        exact hPft
      have hduLe : du ≤ pcost G (pre0 ++ [x]) := hduMin.2 _ hprefix
      obtain ⟨_, hcostQ⟩ := pathFromTo_snoc hprefix hw
      have hQ : pcost G (pre ++ [y]) = pcost G (pre0 ++ [x]) + w := by
        rw [hx, List.concat_eq_append]
        exact hcostQ
      have heyNode2 : ey.node = y := heyNode
      have heyG2 : ey.g ≤ du + w := heyG
      have h1 : e.f ≤ ey.f := hfmin ey heyMem
      rw [hfE, hfEy, heyNode2] at h1
      -- h1 : e.g + hOf h e.node ≤ ey.g + hOf h y; chain it through the
      -- closed predecessor bound and the telescoped consistency bound
      rw [hsplitCost] at hPd
      omega
  omega

theorem astarInv_skip {G : Graph} {h : HTable} {s gl : String} {st : AStarState}
    {e : AEntry} {rest : List AEntry} {hc : Nat}
    (hinv : AStarInv G h s gl st) (hP : popMin st.openL = some (e, rest))
    (hcl : e.node ∈ st.closed) : AStarInv G h s gl (astarSkipState st e rest hc) := by
  obtain ⟨heMem, hre, _⟩ := popMin_spec hP
  have hsub : ∀ x : AEntry, x ∈ rest → x ∈ st.openL := by
    intro x hx
    rw [hre] at hx
    exact List.mem_of_mem_erase hx
  have hsurv : ∀ x : AEntry, x ∈ st.openL → x.node ∉ st.closed → x ∈ rest := by
    intro x hx hnc
    rw [hre]
    refine (List.mem_erase_of_ne ?_).mpr hx
    intro hxe
    rw [hxe] at hnc
    exact hnc hcl
  constructor
  · intro en hen
    exact hinv.entries en (hsub en hen)
  · exact hinv.goalOpen
  · intro u hu adjL hadj vw hvw hnc
    obtain ⟨en, henMem, henNode⟩ := hinv.closedEdges u hu adjL hadj vw hvw hnc
    refine ⟨en, hsurv en henMem ?_, henNode⟩
    rw [henNode]
    exact hnc
  · intro hcons u hu
    obtain ⟨du, hduMin, hduEdge⟩ := hinv.closedOpt hcons u hu
    refine ⟨du, hduMin, ?_⟩
    intro adjL hadj vw hvw hnc
    obtain ⟨en, henMem, henNode, henG⟩ := hduEdge adjL hadj vw hvw hnc
    refine ⟨en, hsurv en henMem ?_, henNode, henG⟩
    rw [henNode]
    exact hnc
  · intro hns
    obtain ⟨en, henMem, henNode, henG⟩ := hinv.startOpen hns
    refine ⟨en, hsurv en henMem ?_, henNode, henG⟩
    rw [henNode]
    exact hns
  · exact hinv.closedKeys
  · exact hinv.closedNodup
  · exact hinv.countEq
  · simp [astarSkipState]
  · apply traceMonoA_append hinv.traceChain
    intro r0 hr0
    exact hinv.traceClosed r0 hr0
  · intro r hr
    rcases List.mem_append.mp hr with hmem | hmem
    · exact hinv.traceClosed r hmem
    · have : r = astarPopRec st e rest hc := by simpa using hmem
      subst this
      exact fun x hx => hx
  · intro r hr
    rcases List.mem_append.mp hr with hmem | hmem
    · exact hinv.traceNoGoal r hmem
    · have : r = astarPopRec st e rest hc := by simpa using hmem
      subst this
      show "Pop min f(n)" ≠ "OPTIMAL GOAL!"
      decide
  · intro hdl
    refine ⟨st.trace, astarPopRec st e rest hc, rfl, ?_⟩
    show rest.map (fun x => (x.f, x.node)) = []
    rw [show rest = ([] : List AEntry) from hdl]
    rfl

theorem astarInv_expand {G : Graph} {h : HTable} {s gl : String} {st : AStarState}
    {e : AEntry} {rest : List AEntry} {hc : Nat} {adjL : List (String × Nat)}
    {pushes : List AEntry} (hwf : wfGraph G)
    (hinv : AStarInv G h s gl st) (hP : popMin st.openL = some (e, rest))
    (hg : e.node ≠ gl) (hcl : e.node ∉ st.closed)
    (hadj : lookupG G e.node = some adjL)
    (hpush : astarPushes h (st.closed ++ [e.node]) e.g e.path (sortPairs adjL) = .ok pushes) :
    AStarInv G h s gl (astarExpandState st e rest hc pushes) := by
  obtain ⟨heMem, hre, _⟩ := popMin_spec hP
  obtain ⟨hpathE, hcostE, hkeyE, hfE⟩ := hinv.entries e heMem
  obtain ⟨hSoundElim, hSoundIntro, _⟩ := astarPushes_sound (sortPairs adjL) pushes hpush
  have hsub : ∀ x : AEntry, x ∈ rest → x ∈ st.openL := by
    intro x hx
    rw [hre] at hx
    exact List.mem_of_mem_erase hx
  have hsurv : ∀ x : AEntry, x ∈ st.openL → x.node ∉ (st.closed ++ [e.node]) →
      x ∈ rest := by
    intro x hx hnc
    rw [hre]
    refine (List.mem_erase_of_ne ?_).mpr hx
    intro hxe
    apply hnc
    rw [hxe]
    exact List.mem_append_right _ (by simp)
  constructor
  · intro en hen
    rcases List.mem_append.mp hen with hmem | hmem
    · exact hinv.entries en (hsub en hmem)
    · obtain ⟨vw, hvwS, hvwNc, hmk⟩ := hSoundElim en hmem
      have hvwAdj : vw ∈ adjL := sortPairs_mem.mp hvwS
      have hedge : edgeW G e.node vw.1 = some vw.2 := by
        apply edgeW_of_mem hwf hadj
        rw [Prod.mk.eta]
        exact hvwAdj
      obtain ⟨hp2, hc2⟩ := pathFromTo_snoc hpathE hedge
      subst hmk
      refine ⟨hp2, ?_, ?_, ?_⟩
      · show pcost G (e.path ++ [vw.1]) = e.g + vw.2
        rw [hc2, hcostE]
      · exact (hwf.2 _ (lookupG_mem hadj)).2 vw hvwAdj
      · show e.g + vw.2 + hOf h vw.1 = e.g + vw.2 + hOf h vw.1
        rfl
  · intro hglMem
    rcases List.mem_append.mp hglMem with hmem | hmem
    · exact hinv.goalOpen hmem
    · have : gl = e.node := by simpa using hmem
      exact hg this.symm
  · intro u hu adjL2 hadj2 vw hvw hnc
    rcases List.mem_append.mp hu with huOld | huE
    · have hncOld : vw.1 ∉ st.closed := fun hx => hnc (List.mem_append_left _ hx)
      obtain ⟨en, henMem, henNode⟩ := hinv.closedEdges u huOld adjL2 hadj2 vw hvw hncOld
      refine ⟨en, List.mem_append_left _ (hsurv en henMem ?_), henNode⟩
      rw [henNode]
      exact hnc
    · have hue : u = e.node := by simpa using huE
      subst hue
      have hadjEq : adjL2 = adjL := by
        rw [hadj] at hadj2
        exact (Option.some.inj hadj2).symm
      subst hadjEq
      exact ⟨mkAEntry e.g e.path vw (hOf h vw.1),
        List.mem_append_right _ (hSoundIntro vw (sortPairs_mem.mpr hvw) hnc), rfl⟩
  · intro hcons u hu
    have hEopt : IsMinCost G s e.node (pcost G) e.g := by
      obtain ⟨dE, hdE⟩ := exists_isMinCost (m := pcost G) ⟨e.path, hpathE⟩
      have hEg : e.g = dE := astar_pop_ming hcons hinv hP hcl hdE
      rw [hEg]
      exact hdE
    rcases List.mem_append.mp hu with huOld | huE
    · obtain ⟨du, hduMin, hduEdge⟩ := hinv.closedOpt hcons u huOld
      refine ⟨du, hduMin, ?_⟩
      intro adjL2 hadj2 vw hvw hnc
      have hncOld : vw.1 ∉ st.closed := fun hx => hnc (List.mem_append_left _ hx)
      obtain ⟨en, henMem, henNode, henG⟩ := hduEdge adjL2 hadj2 vw hvw hncOld
      refine ⟨en, List.mem_append_left _ (hsurv en henMem ?_), henNode, henG⟩
      rw [henNode]
      exact hnc
    · have hue : u = e.node := by simpa using huE
      subst hue
      refine ⟨e.g, hEopt, ?_⟩
      intro adjL2 hadj2 vw hvw hnc
      have hadjEq : adjL2 = adjL := by
        rw [hadj] at hadj2
        exact (Option.some.inj hadj2).symm
      subst hadjEq
      refine ⟨mkAEntry e.g e.path vw (hOf h vw.1), ?_, rfl, ?_⟩
      · exact List.mem_append_right _
          (hSoundIntro vw (sortPairs_mem.mpr hvw) hnc)
      · show e.g + vw.2 ≤ e.g + vw.2
        exact le_refl _
  · intro hns
    have hnsOld : s ∉ st.closed := fun hx => hns (List.mem_append_left _ hx)
    obtain ⟨en, henMem, henNode, henG⟩ := hinv.startOpen hnsOld
    refine ⟨en, List.mem_append_left _ (hsurv en henMem ?_), henNode, henG⟩
    rw [henNode]
    exact hns
  · intro u hu
    rcases List.mem_append.mp hu with hmem | hmem
    · exact hinv.closedKeys u hmem
    · have : u = e.node := by simpa using hmem
      subst this
      exact hkeyE
  · show (st.closed ++ [e.node]).Nodup
    simp [List.nodup_append, hinv.closedNodup, hcl]
  · show st.nodesExpanded + 1 = (st.closed ++ [e.node]).length
    rw [List.length_append, hinv.countEq]
    rfl
  · show (st.trace ++ [astarPopRec st e rest hc]) ++ _ ≠ []
    simp
  · have hchain1 : traceMonoA (st.trace ++ [astarPopRec st e rest hc]) :=
      traceMonoA_append hinv.traceChain (fun r0 hr0 => hinv.traceClosed r0 hr0)
    show traceMonoA ((st.trace ++ [astarPopRec st e rest hc]) ++ _)
    by_cases hif : ((pushes.map (fun x => x.node ++ "(f=" ++ toString x.f ++ ")")).isEmpty)
    · rw [if_pos hif]
      simpa using hchain1
    · rw [if_neg hif]
      apply traceMonoA_append hchain1
      intro r0 hr0
      rcases List.mem_append.mp hr0 with hmem | hmem
      · intro x hx
        exact List.mem_append_left _ (hinv.traceClosed r0 hmem hx)
      · have : r0 = astarPopRec st e rest hc := by simpa using hmem
        subst this
        intro x hx
        exact List.mem_append_left _ hx
  · intro r hr
    rcases List.mem_append.mp hr with hmem | hmem
    · rcases List.mem_append.mp hmem with hmem2 | hmem2
      · intro x hx
        exact List.mem_append_left _ (hinv.traceClosed r hmem2 hx)
      · have : r = astarPopRec st e rest hc := by simpa using hmem2
        subst this
        intro x hx
        exact List.mem_append_left _ hx
    · by_cases hif : ((pushes.map (fun x => x.node ++ "(f=" ++ toString x.f ++ ")")).isEmpty)
      · rw [if_pos hif] at hmem
        cases hmem
      · rw [if_neg hif] at hmem
        have : r = astarExpandRec st e rest pushes := by simpa using hmem
        subst this
        exact fun x hx => hx
  · intro r hr
    rcases List.mem_append.mp hr with hmem | hmem
    · rcases List.mem_append.mp hmem with hmem2 | hmem2
      · exact hinv.traceNoGoal r hmem2
      · have : r = astarPopRec st e rest hc := by simpa using hmem2
        subst this
        show "Pop min f(n)" ≠ "OPTIMAL GOAL!"
        decide
    · by_cases hif : ((pushes.map (fun x => x.node ++ "(f=" ++ toString x.f ++ ")")).isEmpty)
      · rw [if_pos hif] at hmem
        cases hmem
      · rw [if_neg hif] at hmem
        have : r = astarExpandRec st e rest pushes := by simpa using hmem
        subst this
        show "Expand" ≠ "OPTIMAL GOAL!"
        decide
  · intro hempty
    have h2 := List.append_eq_nil.mp hempty
    have hpushesNil : pushes = [] := h2.2
    refine ⟨st.trace, astarPopRec st e rest hc, ?_, ?_⟩
    · show (st.trace ++ [astarPopRec st e rest hc]) ++ _ =
        st.trace ++ [astarPopRec st e rest hc]
      rw [hpushesNil]
      simp
    · show rest.map (fun x => (x.f, x.node)) = []
      rw [show rest = ([] : List AEntry) from h2.1]
      rfl

theorem astarMeasure_skip {G : Graph} {st : AStarState} {e : AEntry}
    {rest : List AEntry} {c : Nat} (hP : popMin st.openL = some (e, rest)) :
    astarMeasure G (astarSkipState st e rest c) < astarMeasure G st := by
  unfold astarMeasure
  have hlen := popMin_length hP
  show unclosedCount G st.closed * (EG G + 2) + rest.length < _
  omega

theorem astarMeasure_expand {G : Graph} {st : AStarState} {e : AEntry}
    {rest : List AEntry} {c : Nat} {adjL : List (String × Nat)}
    {pushes : List AEntry} {h : HTable} (hnd : (keys G).Nodup)
    (hP : popMin st.openL = some (e, rest)) (hcl : e.node ∉ st.closed)
    (hkey : e.node ∈ keys G) (hadj : lookupG G e.node = some adjL)
    (hpush : astarPushes h (st.closed ++ [e.node]) e.g e.path (sortPairs adjL) = .ok pushes) :
    astarMeasure G (astarExpandState st e rest c pushes) < astarMeasure G st := by
  unfold astarMeasure
  have huc := unclosedCount_succ hnd hkey hcl
  have hlen := popMin_length hP
  have hpl : pushes.length ≤ EG G := by
    have h1 := (astarPushes_sound (sortPairs adjL) pushes hpush).2.2
    rw [sortPairs_length] at h1
    exact le_trans h1 (adjL_length_le hadj)
  show unclosedCount G (st.closed ++ [e.node]) * (EG G + 2) +
    (rest ++ pushes).length < _
  rw [List.length_append, ← huc, Nat.succ_mul]
  omega

theorem astarGo_spec (G : Graph) (h : HTable) (s gl : String) (hwf : wfGraph G)
    (hcov : covers h G) :
    ∀ fuel st, AStarInv G h s gl st → astarMeasure G st < fuel →
      ∃ out, astarGo G gl h fuel st = some out ∧ astarGood G h s gl out := by
  intro fuel
  induction fuel with
  | zero => intro st _ hm; exact absurd hm (by omega)
  | succ fuel ih =>
    intro st hinv hm
    rw [astarGo_succ]
    cases hP : popMin st.openL with
    | none =>
      rw [astarStep_none hP]
      have hempty : st.openL = [] := popMin_none hP
      refine ⟨astarFail st, rfl, ?_⟩
      refine ⟨_, _, rfl, hinv.countEq, hinv.closedNodup, hinv.traceChain,
        Or.inr ⟨rfl, rfl, ?_, hinv.lastOpen hempty⟩⟩
      intro hreach
      apply frontier_nonempty (f := AEntry.node) hinv.goalOpen
        (fun hns => by
          obtain ⟨en, hmem, hf, _⟩ := hinv.startOpen hns
          exact ⟨en, hmem, hf⟩)
        hinv.closedEdges hreach hempty
    | some pair =>
      obtain ⟨e, rest⟩ := pair
      obtain ⟨heMem, _, _⟩ := popMin_spec hP
      obtain ⟨hpathE, hcostE, hkeyE, hfE⟩ := hinv.entries e heMem
      obtain ⟨hc, hh⟩ := hcov e.node hkeyE
      by_cases hg : e.node = gl
      · rw [astarStep_goal hP hh hg]
        have hncl : e.node ∉ st.closed := by rw [hg]; exact hinv.goalOpen
        refine ⟨astarGoalOut st e rest hc, rfl, ?_⟩
        refine ⟨_, _, rfl, hinv.countEq, hinv.closedNodup, ?_,
          Or.inl ⟨e.path, rfl, ?_, ?_, ?_, st.trace ++ [astarPopRec st e rest hc],
            astarGoalRec st e rest, rfl, rfl, rfl, ?_, ?_⟩⟩
        · apply traceMonoA_append
          · exact traceMonoA_append hinv.traceChain
              (fun r0 hr0 => hinv.traceClosed r0 hr0)
          · intro r0 hr0
            rcases List.mem_append.mp hr0 with hmem | hmem
            · exact hinv.traceClosed r0 hmem
            · have : r0 = astarPopRec st e rest hc := by simpa using hmem
              subst this
              exact fun x hx => hx
        · rw [← hg]
          exact hpathE
        · show some e.g = some (pcost G e.path)
          rw [hcostE]
        · intro hcons q hq
          obtain ⟨d, hd⟩ := exists_isMinCost (m := pcost G) ⟨e.path, hpathE⟩
          have hgd := astar_pop_ming hcons hinv hP hncl hd
          rw [hcostE, hgd]
          apply hd.2
          rw [hg]
          exact hq
        · show e.g = pcost G e.path
          exact hcostE.symm
        · intro r hr
          rcases List.mem_append.mp hr with hmem | hmem
          · exact hinv.traceNoGoal r hmem
          · have : r = astarPopRec st e rest hc := by simpa using hmem
            subst this
            show "Pop min f(n)" ≠ "OPTIMAL GOAL!"
            decide
      · by_cases hcl : e.node ∈ st.closed
        · rw [astarStep_skip hP hh hg hcl]
          exact ih _ (astarInv_skip hinv hP hcl)
            (by have := astarMeasure_skip (G := G) (c := hc) hP; omega)
        · obtain ⟨adjL, hadj⟩ := lookupG_isSome hkeyE
          have hcovAdj : ∀ vw ∈ sortPairs adjL, ∃ x, hLookup h vw.1 = some x := by
            intro vw hvw
            exact hcov vw.1
              ((hwf.2 _ (lookupG_mem hadj)).2 vw (sortPairs_mem.mp hvw))
          obtain ⟨pushes, hpush⟩ :=
            astarPushes_ok (C := st.closed ++ [e.node]) (g := e.g)
              (p := e.path) (sortPairs adjL) hcovAdj
          rw [astarStep_expand hP hh hg hcl hadj hpush]
          exact ih _ (astarInv_expand hwf hinv hP hg hcl hadj hpush)
            (by have := astarMeasure_expand (c := hc) hwf.1 hP hcl hkeyE hadj hpush
                omega)

/-- A* totality with all loop guarantees, for a well-formed graph, a
heuristic table covering its keys, and a consistent heuristic. -/
theorem astar_total (G : Graph) (h : HTable) (s gl : String) (hwf : wfGraph G)
    (hcov : covers h G) (hs : s ∈ keys G) :
    ∃ out, astar_collect_trace G s gl h = some out ∧ astarGood G h s gl out := by
  obtain ⟨hs0, hsl⟩ := hcov s hs
  have hred : astar_collect_trace G s gl h =
      astarGo G gl h (fuelBound G) (astarInit s gl hs0) := by
    unfold astar_collect_trace
    rw [hsl]
  rw [hred]
  apply astarGo_spec G h s gl hwf hcov
  · unfold astarInit
    constructor
    · intro en hen
      have : en = astarStartEntry s hs0 := by simpa using hen
      subst this
      refine ⟨⟨rfl, rfl, rfl⟩, rfl, hs, ?_⟩
      show hs0 = 0 + hOf h s
      rw [hOf_eq hsl]
      omega
    · simp
    · intro u hu
      cases hu
    · intro _ u hu
      cases hu
    · intro _
      exact ⟨astarStartEntry s hs0, by simp, rfl, rfl⟩
    · intro u hu
      cases hu
    · exact List.nodup_nil
    · rfl
    · simp
    · exact List.chain'_singleton _
    · intro r hr
      have : r = astarInitRec s gl hs0 := by simpa using hr
      subst this
      exact fun x hx => hx
    · intro r hr
      have : r = astarInitRec s gl hs0 := by simpa using hr
      subst this
      show "Initialize" ≠ "OPTIMAL GOAL!"
      decide
    · intro hko
      exact absurd hko (by simp)
  · show unclosedCount G [] * (EG G + 2) + 1 < (keys G).length * (EG G + 2) + 2
    have h1 : unclosedCount G [] ≤ (keys G).length := unclosedCount_le []
    have h2 : unclosedCount G [] * (EG G + 2) ≤ (keys G).length * (EG G + 2) :=
      Nat.mul_le_mul_right _ h1
    omega

/-! ### Extra step equations and unfolding lemmas -/

theorem bfsStep_keyError {G : Graph} {goal : String} {st : BfsState} {e : SEntry}
    {rest : List SEntry} (h : st.openL = e :: rest) (hg : e.1 ≠ goal)
    (hc : e.1 ∉ st.closed) (hl : lookupG G e.1 = none) :
    bfsStep G goal st = .inl (.keyError e.1) := by
  unfold bfsStep
  rw [h]
  simp [hg, hc, hl]

theorem astarStep_gKeyError {G : Graph} {goal : String} {h : HTable} {st : AStarState}
    {e : AEntry} {rest : List AEntry} {hc : Nat}
    (hP : popMin st.openL = some (e, rest)) (hh : hLookup h e.node = some hc)
    (hg : e.node ≠ goal) (hcl : e.node ∉ st.closed)
    (hl : lookupG G e.node = none) : astarStep G goal h st = .inl (.keyError e.node) := by
  unfold astarStep
  rw [hP]
  simp only [hh]
  simp [hg, hcl, hl]

/-- On every graph, searching with `start = goal` succeeds immediately on
the first pop with the single-node path, cost 0, and nothing expanded
(DFS). -/
theorem dfs_selfGoal (G : Graph) (s : String) :
    ∃ res cl, dfs_collect_trace G s s = some (.ok res cl) ∧
      res.path = some [s] ∧ res.cost = some 0 ∧ res.nodesExpanded = 0 ∧
      res.steps = 1 := by
  have h1 : dfsStep G s (dfsInit s s) = .inl (dfsGoalOut s (dfsInit s s) (s, [s], 0)) :=
    dfsStep_goal (by simp [dfsInit]) rfl
  unfold dfs_collect_trace
  rw [show fuelBound G = ((keys G).length * (EG G + 2) + 1) + 1 from rfl, dfsGo_succ, h1]
  exact ⟨_, _, rfl, rfl, rfl, rfl, rfl⟩

/-- Same for BFS. -/
theorem bfs_selfGoal (G : Graph) (s : String) :
    ∃ res cl, bfs_collect_trace G s s = some (.ok res cl) ∧
      res.path = some [s] ∧ res.cost = some 0 ∧ res.nodesExpanded = 0 ∧
      res.steps = 1 := by
  have h1 : bfsStep G s (bfsInit s s) =
      .inl (bfsGoalOut s (bfsInit s s) (s, [s], 0) []) :=
    bfsStep_goal rfl rfl
  unfold bfs_collect_trace
  rw [show fuelBound G = ((keys G).length * (EG G + 2) + 1) + 1 from rfl, bfsGo_succ, h1]
  exact ⟨_, _, rfl, rfl, rfl, rfl, rfl⟩

/-- Same for A*, provided the heuristic table has an entry for the start
node (Python evaluates `heuristic[start]` before anything else). -/
theorem astar_selfGoal (G : Graph) (h : HTable) (s : String) {hs0 : Nat}
    (hsl : hLookup h s = some hs0) :
    ∃ res cl, astar_collect_trace G s s h = some (.ok res cl) ∧
      res.path = some [s] ∧ res.cost = some 0 ∧ res.nodesExpanded = 0 ∧
      res.steps = 1 := by
  have hP : popMin (astarInit s s hs0).openL =
      some (astarStartEntry s hs0,
        [astarStartEntry s hs0].erase (astarStartEntry s hs0)) := rfl
  have h1 : astarStep G s h (astarInit s s hs0) =
      .inl (astarGoalOut (astarInit s s hs0) (astarStartEntry s hs0)
        ([astarStartEntry s hs0].erase (astarStartEntry s hs0)) hs0) :=
    astarStep_goal hP hsl rfl
  unfold astar_collect_trace
  rw [hsl]
  have hmain : astarGo G s h (fuelBound G) (astarInit s s hs0) =
      some (astarGoalOut (astarInit s s hs0) (astarStartEntry s hs0)
        ([astarStartEntry s hs0].erase (astarStartEntry s hs0)) hs0) := by
    rw [show fuelBound G = ((keys G).length * (EG G + 2) + 1) + 1 from rfl,
      astarGo_succ, h1]
  exact ⟨_, _, hmain, rfl, rfl, rfl, rfl⟩

/-- If the start key is absent and differs from the goal, DFS raises a
`KeyError` for it when expanding the start node on step 1. -/
theorem dfs_missingStart {G : Graph} {s gl : String} (hs : s ∉ keys G)
    (hne : s ≠ gl) : dfs_collect_trace G s gl = some (.keyError s) := by
  have h1 : dfsStep G gl (dfsInit s gl) = .inl (.keyError s) :=
    dfsStep_keyError (e := (s, [s], 0)) (by simp [dfsInit]) hne
      (by simp [dfsInit]) (lookupG_eq_none hs)
  unfold dfs_collect_trace
  rw [show fuelBound G = ((keys G).length * (EG G + 2) + 1) + 1 from rfl,
    dfsGo_succ, h1]

/-- Same for BFS. -/
theorem bfs_missingStart {G : Graph} {s gl : String} (hs : s ∉ keys G)
    (hne : s ≠ gl) : bfs_collect_trace G s gl = some (.keyError s) := by
  have h1 : bfsStep G gl (bfsInit s gl) = .inl (.keyError s) :=
    bfsStep_keyError (e := (s, [s], 0)) rfl hne (by simp [bfsInit])
      (lookupG_eq_none hs)
  unfold bfs_collect_trace
  rw [show fuelBound G = ((keys G).length * (EG G + 2) + 1) + 1 from rfl,
    bfsGo_succ, h1]

/-- Same for A*, provided the heuristic table covers the start node
(otherwise A* raises for the heuristic lookup even earlier). -/
theorem astar_missingStart {G : Graph} {h : HTable} {s gl : String} {hs0 : Nat}
    (hsl : hLookup h s = some hs0) (hs : s ∉ keys G) (hne : s ≠ gl) :
    astar_collect_trace G s gl h = some (.keyError s) := by
  have hP : popMin (astarInit s gl hs0).openL =
      some (astarStartEntry s hs0,
        [astarStartEntry s hs0].erase (astarStartEntry s hs0)) := rfl
  have h1 : astarStep G gl h (astarInit s gl hs0) = .inl (.keyError s) :=
    astarStep_gKeyError hP hsl hne (by simp [astarInit]) (lookupG_eq_none hs)
  unfold astar_collect_trace
  rw [hsl]
  show astarGo G gl h (fuelBound G) (astarInit s gl hs0) = _
  rw [show fuelBound G = ((keys G).length * (EG G + 2) + 1) + 1 from rfl,
    astarGo_succ, h1]

/-- In a well-formed graph, the last node of a path is a key unless the
path is the trivial single-node path. -/
theorem last_mem_keys {G : Graph} (hwf : wfGraph G) :
    ∀ (p : List String) (t : String), okPath G p = true → p.getLast? = some t →
      t ∈ keys G ∨ p = [t] := by
  intro p
  induction p with
  | nil => intro t _ h2; exact absurd h2 (by simp)
  | cons a q ih =>
    intro t hok hlast
    cases q with
    | nil =>
      right
      have : a = t := by simpa using hlast
      rw [this]
    | cons b r =>
      obtain ⟨hedge, hok2⟩ := okPath_cons_cons.mp hok
      have hlast2 : (b :: r).getLast? = some t := by
        rwa [List.getLast?_cons_cons] at hlast
      rcases ih t hok2 hlast2 with hk | hbt
      · left
        exact hk
      · left
        have hbt2 : b = t := by
          have := congrArg List.head? hbt
          simpa using this
        obtain ⟨w, hw⟩ := Option.isSome_iff_exists.mp hedge
        obtain ⟨adjL, hl, hm⟩ := edgeW_some_elim hw
        have hbk := (hwf.2 _ (lookupG_mem hl)).2 (b, w) hm
        rw [← hbt2]
        exact hbk

/-- A successful search path to a goal that is not a key forces
`start = goal`. -/
theorem pathFromTo_goal_keys {G : Graph} {p : List String} {s gl : String}
    (hwf : wfGraph G) (hp : PathFromTo G p s gl) : gl ∈ keys G ∨ s = gl := by
  obtain ⟨hok, hh, hl⟩ := hp
  rcases last_mem_keys hwf p gl hok hl with hk | hpt
  · exact Or.inl hk
  · right
    rw [hpt] at hh
    simpa using hh.symm

theorem exG2_wf : wfGraph exG2 := by
  constructor
  · decide
  · decide

theorem exG4_wf : wfGraph exG4 := by
  constructor
  · decide
  · decide

theorem exH2_covers : covers exH2 exG2 := by
  intro u hu
  rcases List.mem_cons.mp hu with h1 | h1
  · exact ⟨0, by rw [h1]; decide⟩
  · have h2 : u = "B" := by simpa using h1
    exact ⟨0, by rw [h2]; decide⟩

theorem exH4_covers : covers exH4 exG4 := by
  intro u hu
  rcases List.mem_cons.mp hu with h1 | h1
  · exact ⟨0, by rw [h1]; decide⟩
  rcases List.mem_cons.mp h1 with h2 | h2
  · exact ⟨0, by rw [h2]; decide⟩
  rcases List.mem_cons.mp h2 with h3 | h3
  · exact ⟨0, by rw [h3]; decide⟩
  · have h4 : u = "D" := by simpa using h3
    exact ⟨0, by rw [h4]; decide⟩

theorem exH2_consistent : Consistent exG2 exH2 := by
  unfold Consistent
  decide

theorem exH2_admissible : Admissible exG2 exH2 "B" := by
  intro kv hkv d _
  have h0 : hOf exH2 kv.1 = 0 := by
    rcases List.mem_cons.mp hkv with h1 | h1
    · rw [h1]
      decide
    · have h2 : kv = ("B", [("A", 2)]) := by simpa using h1
      rw [h2]
      decide
  rw [h0]
  exact Nat.zero_le d

/-- The goal component of `exG4` is unreachable from `"A"`; derived from
the DFS guarantees together with the computed absent-path run. -/
theorem exG4_unreachable : ¬ Reachable exG4 "A" "C" := by
  obtain ⟨out, hout, res, cl, hok, _, _, _, hcase⟩ :=
    dfs_total exG4 "A" "C" exG4_wf (by decide)
  rcases hcase with ⟨p, hp, _⟩ | ⟨_, _, hnr, _⟩
  · exfalso
    subst hok
    have hcomp : pathIsNone (dfs_collect_trace exG4 "A" "C") = true := by decide
    rw [hout] at hcomp
    have hcomp2 : res.path.isNone = true := hcomp
    rw [hp] at hcomp2
    cases hcomp2
  · exact hnr

theorem exG2_pathAB : PathFromTo exG2 ["A", "B"] "A" "B" := by
  unfold PathFromTo
  refine ⟨by decide, by decide, by decide⟩

/-! ### The claims -/

/-- C1: For every finite graph with positive edge weights, every admissible
and consistent heuristic table (defined on every graph key, with the start a
key, as the spec assumes for valid inputs), and every goal reachable from
the start, `astar_collect_trace` returns normally and its cost equals the
true shortest-path cost from start to goal. -/
theorem claim_C1 (G : Graph) (h : HTable) (s gl : String) (hwf : wfGraph G)
    (_hpos : posW G) (_hadm : Admissible G h gl) (hcons : Consistent G h)
    (hcov : covers h G) (hs : s ∈ keys G) (hreach : Reachable G s gl) :
    ∃ res cl c, astar_collect_trace G s gl h = some (.ok res cl) ∧
      res.cost = some c ∧ IsMinCost G s gl (pcost G) c := by
  obtain ⟨out, hout, res, cl, hok, _, _, _, hcase⟩ :=
    astar_total G h s gl hwf hcov hs
  subst hok
  rcases hcase with ⟨p, hp, hpath, hcost, hmin, _⟩ | ⟨_, _, hnr, _⟩
  · exact ⟨res, cl, pcost G p, hout, hcost, ⟨p, hpath, rfl⟩, hmin hcons⟩
  · exact absurd hreach hnr

theorem claim_C1_witness :
    ∃ res cl c, astar_collect_trace exG2 "A" "B" exH2 = some (.ok res cl) ∧
      res.cost = some c ∧ IsMinCost exG2 "A" "B" (pcost exG2) c :=
  claim_C1 exG2 exH2 "A" "B" exG2_wf (by unfold posW; decide) exH2_admissible
    exH2_consistent exH2_covers (by decide) ⟨["A", "B"], exG2_pathAB⟩

/-- C2: For every finite well-formed graph, every start and goal key of the
graph (goal reachable or not), and any heuristic table defined on every key,
each of the three searches terminates with a normal result (no fuel
exhaustion in the embedding, no `KeyError`). -/
theorem claim_C2 (G : Graph) (h : HTable) (s gl : String) (hwf : wfGraph G)
    (hs : s ∈ keys G) (_hgl : gl ∈ keys G) (hcov : covers h G) :
    (∃ res cl, dfs_collect_trace G s gl = some (.ok res cl)) ∧
    (∃ res cl, bfs_collect_trace G s gl = some (.ok res cl)) ∧
    (∃ res cl, astar_collect_trace G s gl h = some (.ok res cl)) := by
  refine ⟨?_, ?_, ?_⟩
  · obtain ⟨out, hout, res, cl, hok, _⟩ := dfs_total G s gl hwf hs
    exact ⟨res, cl, hok ▸ hout⟩
  · obtain ⟨out, hout, res, cl, hok, _⟩ := bfs_total G s gl hwf hs
    exact ⟨res, cl, hok ▸ hout⟩
  · obtain ⟨out, hout, res, cl, hok, _⟩ := astar_total G h s gl hwf hcov hs
    exact ⟨res, cl, hok ▸ hout⟩

theorem claim_C2_witness :
    (∃ res cl, dfs_collect_trace exG2 "A" "B" = some (.ok res cl)) ∧
    (∃ res cl, bfs_collect_trace exG2 "A" "B" = some (.ok res cl)) ∧
    (∃ res cl, astar_collect_trace exG2 "A" "B" exH2 = some (.ok res cl)) :=
  claim_C2 exG2 exH2 "A" "B" exG2_wf (by decide) (by decide) exH2_covers

/-- C3: For every finite well-formed graph and every goal reachable from the
start key, `bfs_collect_trace` returns a path with the fewest edges among
all paths from start to goal (not necessarily the lowest weighted cost). -/
theorem claim_C3 (G : Graph) (s gl : String) (hwf : wfGraph G)
    (hs : s ∈ keys G) (hreach : Reachable G s gl) :
    ∃ res cl p, bfs_collect_trace G s gl = some (.ok res cl) ∧
      res.path = some p ∧ PathFromTo G p s gl ∧
      ∀ q, PathFromTo G q s gl → hops p ≤ hops q := by
  obtain ⟨out, hout, res, cl, hok, _, _, _, hcase⟩ := bfs_total G s gl hwf hs
  subst hok
  rcases hcase with ⟨p, hp, hpath, _, hmin, _⟩ | ⟨_, _, hnr, _⟩
  · refine ⟨res, cl, p, hout, hp, hpath, ?_⟩
    intro q hq
    have h1 := hmin q hq
    unfold plen at h1
    unfold hops
    omega
  · exact absurd hreach hnr

theorem claim_C3_witness :
    ∃ res cl p, bfs_collect_trace exG2 "A" "B" = some (.ok res cl) ∧
      res.path = some p ∧ PathFromTo exG2 p "A" "B" ∧
      ∀ q, PathFromTo exG2 q "A" "B" → hops p ≤ hops q :=
  claim_C3 exG2 "A" "B" exG2_wf (by decide) ⟨["A", "B"], exG2_pathAB⟩

/-- C4 (amended): When the start key is missing (and differs from the goal,
whose test fires before the first expansion), every strategy raises a
`KeyError` for the start on step 1, before any trace-affecting expansion;
A* raises even earlier when the heuristic table lacks the start.  When
instead only the goal identifier is missing, no error is raised at all: the
searches exhaust the frontier and return a normal absent-path result with
trace records emitted, contradicting the fail-fast reading of the original
claim (see the counterexample). -/
theorem claim_C4 (G : Graph) (h : HTable) (s gl : String) :
    (∀ hs0 : Nat, s ∉ keys G → s ≠ gl → hLookup h s = some hs0 →
      dfs_collect_trace G s gl = some (.keyError s) ∧
      bfs_collect_trace G s gl = some (.keyError s) ∧
      astar_collect_trace G s gl h = some (.keyError s)) ∧
    (hLookup h s = none → astar_collect_trace G s gl h = some (.keyError s)) ∧
    (wfGraph G → covers h G → s ∈ keys G → gl ∉ keys G → s ≠ gl →
      pathIsNone (dfs_collect_trace G s gl) = true ∧
      pathIsNone (bfs_collect_trace G s gl) = true ∧
      pathIsNoneA (astar_collect_trace G s gl h) = true) := by
  refine ⟨?_, ?_, ?_⟩
  · intro hs0 hsk hne hsl
    exact ⟨dfs_missingStart hsk hne, bfs_missingStart hsk hne,
      astar_missingStart hsl hsk hne⟩
  · intro hn
    unfold astar_collect_trace
    rw [hn]
  · intro hwf hcov hs hgl hne
    refine ⟨?_, ?_, ?_⟩
    · obtain ⟨out, hout, res, cl, hok, _, _, _, hcase⟩ :=
        dfs_total G s gl hwf hs
      subst hok
      rcases hcase with ⟨p, _, hpath, _⟩ | ⟨hpn, _⟩
      · rcases pathFromTo_goal_keys hwf hpath with hk | hsg
        · exact absurd hk hgl
        · exact absurd hsg hne
      · rw [hout]
        show res.path.isNone = true
        rw [hpn]
        rfl
    · obtain ⟨out, hout, res, cl, hok, _, _, _, hcase⟩ :=
        bfs_total G s gl hwf hs
      subst hok
      rcases hcase with ⟨p, _, hpath, _⟩ | ⟨hpn, _⟩
      · rcases pathFromTo_goal_keys hwf hpath with hk | hsg
        · exact absurd hk hgl
        · exact absurd hsg hne
      · rw [hout]
        show res.path.isNone = true
        rw [hpn]
        rfl
    · obtain ⟨out, hout, res, cl, hok, _, _, _, hcase⟩ :=
        astar_total G h s gl hwf hcov hs
      subst hok
      rcases hcase with ⟨p, _, hpath, _⟩ | ⟨hpn, _⟩
      · rcases pathFromTo_goal_keys hwf hpath with hk | hsg
        · exact absurd hk hgl
        · exact absurd hsg hne
      · rw [hout]
        show res.path.isNone = true
        rw [hpn]
        rfl

theorem claim_C4_witness :
    dfs_collect_trace exG2 "X" "A" = some (.keyError "X") ∧
    pathIsNone (dfs_collect_trace exG2 "A" "C") = true :=
  ⟨((claim_C4 exG2 exH2X "X" "A").1 0 (by decide) (by decide) (by decide)).1,
   ((claim_C4 exG2 exH2 "A" "C").2.2 exG2_wf exH2_covers (by decide)
     (by decide) (by decide)).1⟩

/-- C4, refutation of the original fail-fast reading: with the goal `"C"`
absent from `exG2`, all three strategies return normally — no error — and
each emits four trace records. -/
theorem claim_C4_counterexample :
    keys exG2 = ["A", "B"] ∧
    isOkOutcome (dfs_collect_trace exG2 "A" "C") = true ∧
    traceLen (dfs_collect_trace exG2 "A" "C") = 4 ∧
    isOkOutcome (bfs_collect_trace exG2 "A" "C") = true ∧
    traceLen (bfs_collect_trace exG2 "A" "C") = 4 ∧
    isOkOutcomeA (astar_collect_trace exG2 "A" "C" exH2) = true ∧
    traceLenA (astar_collect_trace exG2 "A" "C" exH2) = 4 :=
  ⟨by decide, by decide, by decide, by decide, by decide, by decide, by decide⟩

/-- C5: On a well-formed graph in which the goal key is not reachable from
the start key (in particular on two disconnected components holding them),
all three strategies return a normal absent-path result — not an error —
with nodes-expanded count equal to the final closed-set size, and their
trace ends with a record whose frontier snapshot is empty. -/
theorem claim_C5 (G : Graph) (h : HTable) (s gl : String) (hwf : wfGraph G)
    (hs : s ∈ keys G) (_hgl : gl ∈ keys G) (hcov : covers h G)
    (hnr : ¬ Reachable G s gl) :
    (∃ res cl, dfs_collect_trace G s gl = some (.ok res cl) ∧
      res.path = none ∧ res.cost = none ∧ res.nodesExpanded = cl.length ∧
      ∃ t r, res.trace = t ++ [r] ∧ r.openSnap = []) ∧
    (∃ res cl, bfs_collect_trace G s gl = some (.ok res cl) ∧
      res.path = none ∧ res.cost = none ∧ res.nodesExpanded = cl.length ∧
      ∃ t r, res.trace = t ++ [r] ∧ r.openSnap = []) ∧
    (∃ res cl, astar_collect_trace G s gl h = some (.ok res cl) ∧
      res.path = none ∧ res.cost = none ∧ res.nodesExpanded = cl.length ∧
      ∃ t r, res.trace = t ++ [r] ∧ r.openSnap = []) := by
  refine ⟨?_, ?_, ?_⟩
  · obtain ⟨out, hout, res, cl, hok, hne, _, _, hcase⟩ :=
      dfs_total G s gl hwf hs
    subst hok
    rcases hcase with ⟨p, _, hpath, _⟩ | ⟨hpn, hcn, _, hend⟩
    · exact absurd ⟨p, hpath⟩ hnr
    · exact ⟨res, cl, hout, hpn, hcn, hne, hend⟩
  · obtain ⟨out, hout, res, cl, hok, hne, _, _, hcase⟩ :=
      bfs_total G s gl hwf hs
    subst hok
    rcases hcase with ⟨p, _, hpath, _⟩ | ⟨hpn, hcn, _, hend⟩
    · exact absurd ⟨p, hpath⟩ hnr
    · exact ⟨res, cl, hout, hpn, hcn, hne, hend⟩
  · obtain ⟨out, hout, res, cl, hok, hne, _, _, hcase⟩ :=
      astar_total G h s gl hwf hcov hs
    subst hok
    rcases hcase with ⟨p, _, hpath, _⟩ | ⟨hpn, hcn, _, hend⟩
    · exact absurd ⟨p, hpath⟩ hnr
    · exact ⟨res, cl, hout, hpn, hcn, hne, hend⟩

theorem claim_C5_witness :
    (∃ res cl, dfs_collect_trace exG4 "A" "C" = some (.ok res cl) ∧
      res.path = none ∧ res.cost = none ∧ res.nodesExpanded = cl.length ∧
      ∃ t r, res.trace = t ++ [r] ∧ r.openSnap = []) ∧
    (∃ res cl, bfs_collect_trace exG4 "A" "C" = some (.ok res cl) ∧
      res.path = none ∧ res.cost = none ∧ res.nodesExpanded = cl.length ∧
      ∃ t r, res.trace = t ++ [r] ∧ r.openSnap = []) ∧
    (∃ res cl, astar_collect_trace exG4 "A" "C" exH4 = some (.ok res cl) ∧
      res.path = none ∧ res.cost = none ∧ res.nodesExpanded = cl.length ∧
      ∃ t r, res.trace = t ++ [r] ∧ r.openSnap = []) :=
  claim_C5 exG4 exH4 "A" "C" exG4_wf (by decide) (by decide) exH4_covers
    exG4_unreachable

/-- C6: For every successful search (any strategy), the trace ends with the
goal record — "GOAL FOUND!" for DFS/BFS, "OPTIMAL GOAL!" for A* — no
earlier record carries that action (so it occurs exactly once), and the
path and cost stored in that last record equal the returned ones. -/
theorem claim_C6 (G : Graph) (h : HTable) (s gl : String) (hwf : wfGraph G)
    (hs : s ∈ keys G) (hcov : covers h G) :
    (∀ res cl p, dfs_collect_trace G s gl = some (.ok res cl) →
      res.path = some p → ∃ t gr, res.trace = t ++ [gr] ∧
        gr.action = "GOAL FOUND!" ∧ gr.path = p ∧ res.cost = some gr.cost ∧
        ∀ r ∈ t, r.action ≠ "GOAL FOUND!") ∧
    (∀ res cl p, bfs_collect_trace G s gl = some (.ok res cl) →
      res.path = some p → ∃ t gr, res.trace = t ++ [gr] ∧
        gr.action = "GOAL FOUND!" ∧ gr.path = p ∧ res.cost = some gr.cost ∧
        ∀ r ∈ t, r.action ≠ "GOAL FOUND!") ∧
    (∀ res cl p, astar_collect_trace G s gl h = some (.ok res cl) →
      res.path = some p → ∃ t gr, res.trace = t ++ [gr] ∧
        gr.action = "OPTIMAL GOAL!" ∧ gr.path = p ∧ res.cost = some gr.cost ∧
        ∀ r ∈ t, r.action ≠ "OPTIMAL GOAL!") := by
  refine ⟨?_, ?_, ?_⟩
  · intro res cl p heq hp
    obtain ⟨out, hout, res2, cl2, hok, _, _, _, hcase⟩ :=
      dfs_total G s gl hwf hs
    subst hok
    rw [heq] at hout
    injection hout with h1
    injection h1 with h2 h3
    subst h2
    rcases hcase with ⟨p2, hp2, _, hcost, t, gr, htr, hact, hgrp, hgrc, hnog⟩ |
      ⟨hpn, _⟩
    · rw [hp] at hp2
      injection hp2 with hp3
      subst hp3
      exact ⟨t, gr, htr, hact, hgrp, by rw [hcost, hgrc], hnog⟩
    · rw [hp] at hpn
      simp at hpn
  · intro res cl p heq hp
    obtain ⟨out, hout, res2, cl2, hok, _, _, _, hcase⟩ :=
      bfs_total G s gl hwf hs
    subst hok
    rw [heq] at hout
    injection hout with h1
    injection h1 with h2 h3
    subst h2
    rcases hcase with ⟨p2, hp2, _, hcost, _, t, gr, htr, hact, hgrp, hgrc, hnog⟩ |
      ⟨hpn, _⟩
    · rw [hp] at hp2
      injection hp2 with hp3
      subst hp3
      exact ⟨t, gr, htr, hact, hgrp, by rw [hcost, hgrc], hnog⟩
    · rw [hp] at hpn
      simp at hpn
  · intro res cl p heq hp
    obtain ⟨out, hout, res2, cl2, hok, _, _, _, hcase⟩ :=
      astar_total G h s gl hwf hcov hs
    subst hok
    rw [heq] at hout
    injection hout with h1
    injection h1 with h2 h3
    subst h2
    rcases hcase with ⟨p2, hp2, _, hcost, _, t, gr, htr, hact, hgrp, hgrc, hnog⟩ |
      ⟨hpn, _⟩
    · rw [hp] at hp2
      injection hp2 with hp3
      subst hp3
      exact ⟨t, gr, htr, hact, hgrp, by rw [hcost, hgrc], hnog⟩
    · rw [hp] at hpn
      simp at hpn

theorem claim_C6_witness :
    isOkOutcome (dfs_collect_trace exG2 "A" "B") = true ∧
    ((∀ res cl p, dfs_collect_trace exG2 "A" "B" = some (.ok res cl) →
      res.path = some p → ∃ t gr, res.trace = t ++ [gr] ∧
        gr.action = "GOAL FOUND!" ∧ gr.path = p ∧ res.cost = some gr.cost ∧
        ∀ r ∈ t, r.action ≠ "GOAL FOUND!") ∧
    (∀ res cl p, bfs_collect_trace exG2 "A" "B" = some (.ok res cl) →
      res.path = some p → ∃ t gr, res.trace = t ++ [gr] ∧
        gr.action = "GOAL FOUND!" ∧ gr.path = p ∧ res.cost = some gr.cost ∧
        ∀ r ∈ t, r.action ≠ "GOAL FOUND!") ∧
    (∀ res cl p, astar_collect_trace exG2 "A" "B" exH2 = some (.ok res cl) →
      res.path = some p → ∃ t gr, res.trace = t ++ [gr] ∧
        gr.action = "OPTIMAL GOAL!" ∧ gr.path = p ∧ res.cost = some gr.cost ∧
        ∀ r ∈ t, r.action ≠ "OPTIMAL GOAL!")) :=
  ⟨by decide, claim_C6 exG2 exH2 "A" "B" exG2_wf (by decide) exH2_covers⟩

/-- C7: Every invocation of a strategy on a well-formed graph with a covered
start key returns with a duplicate-free final closed set whose size equals
the nodes-expanded count, and the closed-set snapshots grow monotonically
along the trace records. -/
theorem claim_C7 (G : Graph) (h : HTable) (s gl : String) (hwf : wfGraph G)
    (hs : s ∈ keys G) (hcov : covers h G) :
    (∃ res cl, dfs_collect_trace G s gl = some (.ok res cl) ∧
      cl.Nodup ∧ res.nodesExpanded = cl.length ∧
      List.Chain' (fun r1 r2 => r1.closedSnap ⊆ r2.closedSnap) res.trace) ∧
    (∃ res cl, bfs_collect_trace G s gl = some (.ok res cl) ∧
      cl.Nodup ∧ res.nodesExpanded = cl.length ∧
      List.Chain' (fun r1 r2 => r1.closedSnap ⊆ r2.closedSnap) res.trace) ∧
    (∃ res cl, astar_collect_trace G s gl h = some (.ok res cl) ∧
      cl.Nodup ∧ res.nodesExpanded = cl.length ∧
      List.Chain' (fun r1 r2 => r1.closedSnap ⊆ r2.closedSnap) res.trace) := by
  refine ⟨?_, ?_, ?_⟩
  · obtain ⟨out, hout, res, cl, hok, hne, hnd, hmono, _⟩ :=
      dfs_total G s gl hwf hs
    subst hok
    exact ⟨res, cl, hout, hnd, hne, hmono⟩
  · obtain ⟨out, hout, res, cl, hok, hne, hnd, hmono, _⟩ :=
      bfs_total G s gl hwf hs
    subst hok
    exact ⟨res, cl, hout, hnd, hne, hmono⟩
  · obtain ⟨out, hout, res, cl, hok, hne, hnd, hmono, _⟩ :=
      astar_total G h s gl hwf hcov hs
    subst hok
    exact ⟨res, cl, hout, hnd, hne, hmono⟩

theorem claim_C7_witness :
    (∃ res cl, dfs_collect_trace exG2 "A" "B" = some (.ok res cl) ∧
      cl.Nodup ∧ res.nodesExpanded = cl.length ∧
      List.Chain' (fun r1 r2 => r1.closedSnap ⊆ r2.closedSnap) res.trace) ∧
    (∃ res cl, bfs_collect_trace exG2 "A" "B" = some (.ok res cl) ∧
      cl.Nodup ∧ res.nodesExpanded = cl.length ∧
      List.Chain' (fun r1 r2 => r1.closedSnap ⊆ r2.closedSnap) res.trace) ∧
    (∃ res cl, astar_collect_trace exG2 "A" "B" exH2 = some (.ok res cl) ∧
      cl.Nodup ∧ res.nodesExpanded = cl.length ∧
      List.Chain' (fun r1 r2 => r1.closedSnap ⊆ r2.closedSnap) res.trace) :=
  claim_C7 exG2 exH2 "A" "B" exG2_wf (by decide) exH2_covers

/-- C9: Every successfully returned path is a genuine graph path — it starts
at the start key, ends at the goal, and follows edges of the graph — and
the returned cost is the sum of the edge weights along it. -/
theorem claim_C9 (G : Graph) (h : HTable) (s gl : String) (hwf : wfGraph G)
    (hs : s ∈ keys G) (hcov : covers h G) :
    (∀ res cl p, dfs_collect_trace G s gl = some (.ok res cl) →
      res.path = some p → PathFromTo G p s gl ∧ res.cost = some (pcost G p)) ∧
    (∀ res cl p, bfs_collect_trace G s gl = some (.ok res cl) →
      res.path = some p → PathFromTo G p s gl ∧ res.cost = some (pcost G p)) ∧
    (∀ res cl p, astar_collect_trace G s gl h = some (.ok res cl) →
      res.path = some p → PathFromTo G p s gl ∧ res.cost = some (pcost G p)) := by
  refine ⟨?_, ?_, ?_⟩
  · intro res cl p heq hp
    obtain ⟨out, hout, res2, cl2, hok, _, _, _, hcase⟩ :=
      dfs_total G s gl hwf hs
    subst hok
    rw [heq] at hout
    injection hout with h1
    injection h1 with h2 h3
    subst h2
    rcases hcase with ⟨p2, hp2, hpath, hcost, _⟩ | ⟨hpn, _⟩
    · rw [hp] at hp2
      injection hp2 with hp3
      subst hp3
      exact ⟨hpath, hcost⟩
    · rw [hp] at hpn
      simp at hpn
  · intro res cl p heq hp
    obtain ⟨out, hout, res2, cl2, hok, _, _, _, hcase⟩ :=
      bfs_total G s gl hwf hs
    subst hok
    rw [heq] at hout
    injection hout with h1
    injection h1 with h2 h3
    subst h2
    rcases hcase with ⟨p2, hp2, hpath, hcost, _⟩ | ⟨hpn, _⟩
    · rw [hp] at hp2
      injection hp2 with hp3
      subst hp3
      exact ⟨hpath, hcost⟩
    · rw [hp] at hpn
      simp at hpn
  · intro res cl p heq hp
    obtain ⟨out, hout, res2, cl2, hok, _, _, _, hcase⟩ :=
      astar_total G h s gl hwf hcov hs
    subst hok
    rw [heq] at hout
    injection hout with h1
    injection h1 with h2 h3
    subst h2
    rcases hcase with ⟨p2, hp2, hpath, hcost, _⟩ | ⟨hpn, _⟩
    · rw [hp] at hp2
      injection hp2 with hp3
      subst hp3
      exact ⟨hpath, hcost⟩
    · rw [hp] at hpn
      simp at hpn

theorem claim_C9_witness :
    isOkOutcome (dfs_collect_trace exG2 "A" "B") = true ∧
    ((∀ res cl p, dfs_collect_trace exG2 "A" "B" = some (.ok res cl) →
      res.path = some p →
        PathFromTo exG2 p "A" "B" ∧ res.cost = some (pcost exG2 p)) ∧
    (∀ res cl p, bfs_collect_trace exG2 "A" "B" = some (.ok res cl) →
      res.path = some p →
        PathFromTo exG2 p "A" "B" ∧ res.cost = some (pcost exG2 p)) ∧
    (∀ res cl p, astar_collect_trace exG2 "A" "B" exH2 = some (.ok res cl) →
      res.path = some p →
        PathFromTo exG2 p "A" "B" ∧ res.cost = some (pcost exG2 p))) :=
  ⟨by decide, claim_C9 exG2 exH2 "A" "B" exG2_wf (by decide) exH2_covers⟩

/-- C10: When start equals goal, with the start a graph key and (for A*) a
heuristic entry present for it, all three strategies return the single-node
path with cost 0 and zero nodes expanded: the goal test on the first pop
fires before any node is added to the closed set or expanded. -/
theorem claim_C10 (G : Graph) (h : HTable) (s : String) (_hs : s ∈ keys G)
    (hsl : ∃ hs0, hLookup h s = some hs0) :
    (∃ res cl, dfs_collect_trace G s s = some (.ok res cl) ∧
      res.path = some [s] ∧ res.cost = some 0 ∧ res.nodesExpanded = 0) ∧
    (∃ res cl, bfs_collect_trace G s s = some (.ok res cl) ∧
      res.path = some [s] ∧ res.cost = some 0 ∧ res.nodesExpanded = 0) ∧
    (∃ res cl, astar_collect_trace G s s h = some (.ok res cl) ∧
      res.path = some [s] ∧ res.cost = some 0 ∧ res.nodesExpanded = 0) := by
  obtain ⟨hs0, hsl0⟩ := hsl
  refine ⟨?_, ?_, ?_⟩
  · obtain ⟨res, cl, h1, h2, h3, h4, _⟩ := dfs_selfGoal G s
    exact ⟨res, cl, h1, h2, h3, h4⟩
  · obtain ⟨res, cl, h1, h2, h3, h4, _⟩ := bfs_selfGoal G s
    exact ⟨res, cl, h1, h2, h3, h4⟩
  · obtain ⟨res, cl, h1, h2, h3, h4, _⟩ := astar_selfGoal G h s hsl0
    exact ⟨res, cl, h1, h2, h3, h4⟩

theorem claim_C10_witness :
    (∃ res cl, dfs_collect_trace exG2 "A" "A" = some (.ok res cl) ∧
      res.path = some ["A"] ∧ res.cost = some 0 ∧ res.nodesExpanded = 0) ∧
    (∃ res cl, bfs_collect_trace exG2 "A" "A" = some (.ok res cl) ∧
      res.path = some ["A"] ∧ res.cost = some 0 ∧ res.nodesExpanded = 0) ∧
    (∃ res cl, astar_collect_trace exG2 "A" "A" exH2 = some (.ok res cl) ∧
      res.path = some ["A"] ∧ res.cost = some 0 ∧ res.nodesExpanded = 0) :=
  claim_C10 exG2 exH2 "A" (by decide) ⟨0, by decide⟩
